import Mathlib

/-!
Verification development for the TekaStory document packaging and vector
rendering engine.  The definitions below are a shallow embedding of the
TypeScript sources (`src/lib/pdf-service.ts`, `src/lib/asset-service.ts`,
`src/lib/panel-template.ts`, `src/store/project-store.ts`,
`src/types/index.ts`): pure functions become Lean functions, the stateful
asset map becomes explicit state passing, JavaScript strings are Lean
strings manipulated through character lists, and the random `uuidv4`
key generator is modelled as a deterministic fresh-name supply threaded
through the store.  Theorems about the spec's claims follow the
definitions.
-/

namespace Tekastory

/-! ## Character-list string helpers

JavaScript `String.prototype.split(sep)` with a one-character separator,
`startsWith`, `endsWith` and `slice` are modelled on `List Char`. -/

/-- JS `s.split(sep)` for a single-character separator: always returns a
non-empty list of (possibly empty) chunks. -/
def splitOnChar (sep : Char) : List Char → List (List Char)
  | [] => [[]]
  | c :: cs =>
    let r := splitOnChar sep cs
    if c == sep then [] :: r
    else
      match r with
      | [] => [[c]]
      | h :: t => (c :: h) :: t

/-- JS `parts.join(sep)` for a single-character separator. -/
def joinChar (sep : Char) : List (List Char) → List Char
  | [] => []
  | [l] => l
  | l :: ls => l ++ sep :: joinChar sep ls

/-- JS `s.startsWith(p)`. -/
def strStarts (s p : String) : Bool :=
  p.toList.isPrefixOf s.toList

/-- JS `s.endsWith(p)`. -/
def strEnds (s p : String) : Bool :=
  p.toList.reverse.isPrefixOf s.toList.reverse

/-! ## Data model (`src/types/index.ts`, `src/store/project-store.ts`)

`isLoading` is a transient UI flag (explicitly stripped from the saved
manifest) and is omitted from the embedded state.  Logo positions and
sizes are strings in the manifest JSON and are embedded as strings. -/

/-- A logo instance on the title or end page (`types/index.ts`). -/
structure Logo where
  src : String
  assetKey : String
  position : String
  size : String
  deriving Repr, DecidableEq

/-- The title page state (`types/index.ts`). -/
structure TitlePage where
  header : String
  subHeader : String
  backgroundImage : String
  backgroundImageAssetKey : String
  logo : Option Logo
  deriving Repr, DecidableEq

/-- A single storyboard panel (`types/index.ts`). -/
structure Panel where
  id : String
  image : String
  imageAssetKey : String
  script : String
  deriving Repr, DecidableEq

/-- The end page state (`types/index.ts`). -/
structure EndPage where
  backgroundImage : String
  backgroundImageAssetKey : String
  logo : Option Logo
  text : String
  showText : Bool
  mirrorTitlePage : Bool
  deriving Repr, DecidableEq

/-- The whole project snapshot (`types/index.ts`, minus the transient
`isLoading` flag). -/
structure ProjectState where
  projectTitle : String
  titlePage : TitlePage
  panels : List Panel
  endPage : EndPage
  logoSizesLinked : Bool
  deriving Repr, DecidableEq

/-! ## Stripped (manifest) view of a state

`saveProject` serializes the state with a JSON replacer that drops the
keys `src`, `image`, `backgroundImage` and `isLoading`; the remaining
structure is the manifest stored as `project.json`.  The `Stripped*`
structures are that manifest document. -/

/-- A logo as stored in `project.json` (no `src`). -/
structure StrippedLogo where
  assetKey : String
  position : String
  size : String
  deriving Repr, DecidableEq

/-- The title page as stored in `project.json`. -/
structure StrippedTitlePage where
  header : String
  subHeader : String
  backgroundImageAssetKey : String
  logo : Option StrippedLogo
  deriving Repr, DecidableEq

/-- A panel as stored in `project.json` (no `image`). -/
structure StrippedPanel where
  id : String
  imageAssetKey : String
  script : String
  deriving Repr, DecidableEq

/-- The end page as stored in `project.json`. -/
structure StrippedEndPage where
  backgroundImageAssetKey : String
  logo : Option StrippedLogo
  text : String
  showText : Bool
  mirrorTitlePage : Bool
  deriving Repr, DecidableEq

/-- The manifest document `project.json`. -/
structure Manifest where
  projectTitle : String
  titlePage : StrippedTitlePage
  panels : List StrippedPanel
  endPage : StrippedEndPage
  logoSizesLinked : Bool
  deriving Repr, DecidableEq

/-- Projection of a live state onto the manifest document: exactly what
survives the replacer in `saveProject`'s `JSON.stringify` call. -/
def strip (s : ProjectState) : Manifest where
  projectTitle := s.projectTitle
  titlePage :=
    { header := s.titlePage.header
      subHeader := s.titlePage.subHeader
      backgroundImageAssetKey := s.titlePage.backgroundImageAssetKey
      logo := s.titlePage.logo.map fun l =>
        { assetKey := l.assetKey, position := l.position, size := l.size } }
  panels := s.panels.map fun p =>
    { id := p.id, imageAssetKey := p.imageAssetKey, script := p.script }
  endPage :=
    { backgroundImageAssetKey := s.endPage.backgroundImageAssetKey
      logo := s.endPage.logo.map fun l =>
        { assetKey := l.assetKey, position := l.position, size := l.size }
      text := s.endPage.text
      showText := s.endPage.showText
      mirrorTitlePage := s.endPage.mirrorTitlePage }
  logoSizesLinked := s.logoSizesLinked

/-- Result of `JSON.parse` on a manifest: a project state whose
display-only fields are absent (modelled as empty strings; they are
overwritten by hydration before use). -/
def embedManifest (m : Manifest) : ProjectState where
  projectTitle := m.projectTitle
  titlePage :=
    { header := m.titlePage.header
      subHeader := m.titlePage.subHeader
      backgroundImage := ""
      backgroundImageAssetKey := m.titlePage.backgroundImageAssetKey
      logo := m.titlePage.logo.map fun l =>
        { src := "", assetKey := l.assetKey, position := l.position, size := l.size } }
  panels := m.panels.map fun p =>
    { id := p.id, image := "", imageAssetKey := p.imageAssetKey, script := p.script }
  endPage :=
    { backgroundImage := ""
      backgroundImageAssetKey := m.endPage.backgroundImageAssetKey
      logo := m.endPage.logo.map fun l =>
        { src := "", assetKey := l.assetKey, position := l.position, size := l.size }
      text := m.endPage.text
      showText := m.endPage.showText
      mirrorTitlePage := m.endPage.mirrorTitlePage }
  logoSizesLinked := m.logoSizesLinked

/-! ## Asset service (`src/lib/asset-service.ts`)

The in-memory `Map<string, File>` becomes an association list together
with a counter that models the `uuidv4` fresh-key supply: the random
identifier of the n-th registered asset is rendered as the character
`u` followed by `n` copies of `x`, which keeps keys non-empty, distinct
from the `default-` placeholder namespace and from the `/images/`
bundled-resource namespace. -/

/-- A binary asset: original filename, MIME type and bytes. -/
structure AssetFile where
  name : String
  mime : String
  data : List Nat
  deriving Repr, DecidableEq

/-- The asset store: the `assetMap` plus the fresh-key supply counter. -/
structure AssetStore where
  files : List (String × AssetFile)
  next : Nat
  deriving Repr, DecidableEq

/-- Map lookup (`assetMap.get`). -/
def lookupAsset (files : List (String × AssetFile)) (k : String) : Option AssetFile :=
  (files.find? fun p => p.1 == k).map Prod.snd

/-- `getAssetFile` from `asset-service.ts`. -/
def getAssetFile (store : AssetStore) (k : String) : Option AssetFile :=
  lookupAsset store.files k

/-- Map insertion (`assetMap.set`): replace an existing binding or append. -/
def mapSet (files : List (String × AssetFile)) (k : String) (f : AssetFile) :
    List (String × AssetFile) :=
  if (files.find? fun p => p.1 == k).isSome then
    files.map fun p => if p.1 == k then (k, f) else p
  else files ++ [(k, f)]

/-- `setAsset` from `asset-service.ts` (used when restoring from a package). -/
def setAsset (k : String) (f : AssetFile) (store : AssetStore) : AssetStore :=
  { store with files := mapSet store.files k f }

/-- `getFileExtension` from `asset-service.ts`: extension including the
dot, or empty for no dot, a leading dot, or a trailing dot. -/
def getFileExtension (filename : String) : String :=
  let cs := filename.toList
  let rec lastDot : List Char → Nat → Option Nat → Option Nat
    | [], _, acc => acc
    | c :: rest, i, acc => lastDot rest (i + 1) (if c == '.' then some i else acc)
  match lastDot cs 0 none with
  | none => ""
  | some i => if i < 1 || i == cs.length - 1 then "" else String.mk (cs.drop i)

/-- Deterministic stand-in for one `uuidv4()` draw. -/
def uuidOf (n : Nat) : String :=
  String.mk ('u' :: List.replicate n 'x')

/-- `addAsset` from `asset-service.ts`: register a file under the fresh
key `uuidv4() + extension` and return the key with the updated store. -/
def addAsset (f : AssetFile) (store : AssetStore) : String × AssetStore :=
  let assetKey := uuidOf store.next ++ getFileExtension f.name
  (assetKey, { files := mapSet store.files assetKey f, next := store.next + 1 })

/-- The store after `clearAssets()`. -/
def emptyStore : AssetStore := { files := [], next := 0 }

/-! ## Content constants (`src/config/content.ts`) -/

def defaultLogoPath : String := "/images/default_logo.png"

def defaultBackgroundPath : String := "/images/default_BG.png"

/-! ## Saving (`saveProject` in `src/lib/pdf-service.ts`)

The browser/Tauri boundary (`fetch`, dialogs, zip encoding) is modelled
by a byte-fetch capability `fetchBytes : String → Option Blob` and by
representing the generated zip as a manifest plus a list of
`assets/`-entries.  The deep copy `JSON.parse(JSON.stringify(state))`
is value semantics in Lean. -/

/-- The payload of a successful `fetch` + `response.blob()`. -/
structure Blob where
  mime : String
  data : List Nat
  deriving Repr, DecidableEq

/-- Mutable state threaded through one save call: the asset store, the
`defaultAssetMap` cache and a log of the placeholder keys for which a
fetch was actually issued. -/
structure SaveState where
  store : AssetStore
  cache : List (String × String)
  fetchLog : List String
  deriving Repr, DecidableEq

/-- `defaultAssetMap.get` (`Map` lookup on the cache). -/
def cacheLookup (cache : List (String × String)) (k : String) : Option String :=
  (cache.find? fun p => p.1 == k).map Prod.snd

/-- JS `path.split('/').pop()` (empty when the split yields nothing). -/
def lastSegment (path : String) : String :=
  match (splitOnChar '/' path.toList).getLast? with
  | some l => String.mk l
  | none => ""

/-- The `File` built from a fetched default asset in
`processAndMapAsset`: named after the default path's last segment
(falling back to the asset key), with the blob's type and bytes. -/
def fetchedFile (assetKey defaultPath : String) (blob : Blob) : AssetFile :=
  { name := if lastSegment defaultPath == "" then assetKey else lastSegment defaultPath
    mime := blob.mime
    data := blob.data }

/-- `processAndMapAsset` from `saveProject`: placeholder keys are served
from the cache or materialized by fetching the default path, registering
the bytes and caching the fresh key; a failed fetch yields the empty
key; real keys pass through untouched. -/
def processAndMapAsset (fetchBytes : String → Option Blob)
    (assetKey defaultPath : String) (st : SaveState) : String × SaveState :=
  if strStarts assetKey "default-" then
    match cacheLookup st.cache assetKey with
    | some k => (k, st)
    | none =>
      match fetchBytes defaultPath with
      | some blob =>
        let r := addAsset (fetchedFile assetKey defaultPath blob) st.store
        (r.1, { store := r.2
                cache := st.cache ++ [(assetKey, r.1)]
                fetchLog := st.fetchLog ++ [assetKey] })
      | none => ("", { st with fetchLog := st.fetchLog ++ [assetKey] })
  else (assetKey, st)

/-- The asset keys reachable from a state, in the order `saveProject`
visits them (title logo, title background, end logo, end background,
panel images). -/
def collectKeys (s : ProjectState) : List String :=
  (match s.titlePage.logo with | some l => [l.assetKey] | none => []) ++
  [s.titlePage.backgroundImageAssetKey] ++
  (match s.endPage.logo with | some l => [l.assetKey] | none => []) ++
  [s.endPage.backgroundImageAssetKey] ++
  s.panels.map (·.imageAssetKey)

/-- One `collectAsset` call: add the key unless it is empty, a
placeholder, or already collected (set membership, insertion order). -/
def collectStep (acc : List String) (k : String) : List String :=
  if k == "" || strStarts k "default-" || acc.contains k then acc else acc ++ [k]

/-- `collectAsset` applied in source order: the `Set` of distinct,
non-empty, non-placeholder keys, in insertion order. -/
def collectAssets (s : ProjectState) : List String :=
  (collectKeys s).foldl collectStep []

/-- The outcome of the pure core of `saveProject`. -/
structure SaveResult where
  manifest : Manifest
  entries : List (String × AssetFile)
  savable : ProjectState
  store : AssetStore
  cache : List (String × String)
  fetchLog : List String
  referenced : List String
  deriving Repr, DecidableEq

/-- The optional-logo wrapper around `processAndMapAsset` used for
`savableState.titlePage.logo` and `savableState.endPage.logo`. -/
def processLogo (fetchBytes : String → Option Blob) (logo : Option Logo)
    (st : SaveState) : Option Logo × SaveState :=
  match logo with
  | some l =>
    let r := processAndMapAsset fetchBytes l.assetKey defaultLogoPath st
    (some { l with assetKey := r.1 }, r.2)
  | none => (none, st)

/-- The four sequential `processAndMapAsset` assignments of
`saveProject`, producing the rewritten savable state. -/
def savePlaceholders (fetchBytes : String → Option Blob) (s : ProjectState)
    (st0 : SaveState) : ProjectState × SaveState :=
  let r1 := processAndMapAsset fetchBytes s.titlePage.backgroundImageAssetKey
    defaultBackgroundPath st0
  let r2 := processLogo fetchBytes s.titlePage.logo r1.2
  let r3 := processAndMapAsset fetchBytes s.endPage.backgroundImageAssetKey
    defaultBackgroundPath r2.2
  let r4 := processLogo fetchBytes s.endPage.logo r3.2
  ({ s with
     titlePage := { s.titlePage with backgroundImageAssetKey := r1.1, logo := r2.1 }
     endPage := { s.endPage with backgroundImageAssetKey := r3.1, logo := r4.1 } },
   r4.2)

/-- Pure core of `saveProject` from `pdf-service.ts`: deep-copy the
state, materialize the four page-level placeholder references, strip the
manifest, collect the referenced keys and emit one `assets/` entry per
referenced key found in the store. -/
def saveProject (fetchBytes : String → Option Blob) (s : ProjectState)
    (store0 : AssetStore) : SaveResult :=
  let r := savePlaceholders fetchBytes s { store := store0, cache := [], fetchLog := [] }
  let savable := r.1
  let referenced := collectAssets savable
  { manifest := strip savable
    entries := referenced.filterMap fun k => (lookupAsset r.2.store.files k).map fun f => (k, f)
    savable := savable
    store := r.2.store
    cache := r.2.cache
    fetchLog := r.2.fetchLog
    referenced := referenced }

/-- The `.tekastory` package: an optional `project.json` entry and the
entries under the `assets/` folder, each named by its asset key. -/
structure Archive where
  manifest : Option Manifest
  assets : List (String × AssetFile)
  deriving Repr, DecidableEq

/-- The package written by a save. -/
def SaveResult.archive (r : SaveResult) : Archive :=
  { manifest := some r.manifest, assets := r.entries }

/-- Well-formedness of the `defaultAssetMap` cache during a save: every
cached value is a real (non-placeholder, non-empty) key resolving in the
current store. -/
def CacheWF (st : SaveState) : Prop :=
  ∀ p ∈ st.cache, strStarts p.2 "default-" = false ∧ p.2 ≠ "" ∧
    (lookupAsset st.store.files p.2).isSome = true

/-- Every cached placeholder was fetched at some point. -/
def CachedLogged (st : SaveState) : Prop :=
  ∀ k v, cacheLookup st.cache k = some v → k ∈ st.fetchLog

/-- Every fetched placeholder is cached (holds when fetches succeed). -/
def LoggedCached (st : SaveState) : Prop :=
  ∀ k ∈ st.fetchLog, (cacheLookup st.cache k).isSome = true

/-- The original page-level asset reference slots of a snapshot paired
with their rewritten counterparts, in processing order. -/
def keyPairs (s savable : ProjectState) : List (String × String) :=
  [(s.titlePage.backgroundImageAssetKey, savable.titlePage.backgroundImageAssetKey)] ++
  (match s.titlePage.logo, savable.titlePage.logo with
   | some a, some b => [(a.assetKey, b.assetKey)]
   | _, _ => []) ++
  [(s.endPage.backgroundImageAssetKey, savable.endPage.backgroundImageAssetKey)] ++
  (match s.endPage.logo, savable.endPage.logo with
   | some a, some b => [(a.assetKey, b.assetKey)]
   | _, _ => [])

/-- The original page-level asset keys of a snapshot, in processing
order (title background, title logo, end background, end logo). -/
def fieldKeys (s : ProjectState) : List String :=
  [s.titlePage.backgroundImageAssetKey] ++
  (match s.titlePage.logo with | some l => [l.assetKey] | none => []) ++
  [s.endPage.backgroundImageAssetKey] ++
  (match s.endPage.logo with | some l => [l.assetKey] | none => [])

/-- The placeholder-processing steps of one save in source order, each
an asset key together with the default path it would be fetched from
(proof scaffolding for reasoning about `savePlaceholders`). -/
def stepList (s : ProjectState) : List (String × String) :=
  [(s.titlePage.backgroundImageAssetKey, defaultBackgroundPath)] ++
  (match s.titlePage.logo with
   | some l => [(l.assetKey, defaultLogoPath)] | none => []) ++
  [(s.endPage.backgroundImageAssetKey, defaultBackgroundPath)] ++
  (match s.endPage.logo with
   | some l => [(l.assetKey, defaultLogoPath)] | none => [])

/-- Sequential execution of `processAndMapAsset` steps, collecting the
rewritten keys (proof scaffolding). -/
def runSteps (fB : String → Option Blob) :
    List (String × String) → SaveState → List String × SaveState
  | [], st => ([], st)
  | kp :: rest, st =>
    let r := processAndMapAsset fB kp.1 kp.2 st
    let rr := runSteps fB rest r.2
    (r.1 :: rr.1, rr.2)

/-- A sample project state referencing the default background and logo
placeholders plus one real panel asset (concrete test input). -/
def sampleState : ProjectState where
  projectTitle := "My Story Project"
  titlePage :=
    { header := "Client Name"
      subHeader := "Project Title"
      backgroundImage := "/images/default_BG.png"
      backgroundImageAssetKey := "default-background"
      logo := some { src := "/images/default_logo.png", assetKey := "default-logo"
                     position := "bottom-right", size := "M" } }
  panels := [{ id := "p1", image := "blob:1", imageAssetKey := "u7.png", script := "hi" }]
  endPage :=
    { backgroundImage := "/images/default_BG.png"
      backgroundImageAssetKey := "default-background"
      logo := some { src := "/images/default_logo.png", assetKey := "default-logo"
                     position := "bottom-center", size := "M" }
      text := "The End"
      showText := true
      mirrorTitlePage := true }
  logoSizesLinked := true

/-- A sample store resolving the panel asset of `sampleState`. -/
def sampleStore : AssetStore where
  files := [("u7.png", { name := "img.png", mime := "image/png", data := [9] })]
  next := 1

/-- A byte-fetch capability that always succeeds. -/
def fetchOk : String → Option Blob :=
  fun _ => some { mime := "image/png", data := [1, 2] }

/-- A byte-fetch capability failing exactly on the default background. -/
def fetchNoBg : String → Option Blob :=
  fun p => if p == defaultBackgroundPath then none
           else some { mime := "image/png", data := [1, 2] }

/-- A sample object-URL capability. -/
def urlOfName : AssetFile → String :=
  fun f => "blob:" ++ f.name

/-- A state with an empty project title and no placeholder references
(concrete test input for the load-time title backfill). -/
def emptyTitleState : ProjectState where
  projectTitle := ""
  titlePage :=
    { header := "h", subHeader := "", backgroundImage := ""
      backgroundImageAssetKey := "", logo := none }
  panels := []
  endPage :=
    { backgroundImage := "", backgroundImageAssetKey := "", logo := none
      text := "", showText := false, mirrorTitlePage := false }
  logoSizesLinked := false

/-- Erase the four page-level asset reference slots of a manifest:
two manifests agree under `eraseKeys` exactly when they agree on
everything else. -/
def eraseKeys (m : Manifest) : Manifest :=
  { m with
    titlePage :=
      { m.titlePage with
        backgroundImageAssetKey := ""
        logo := m.titlePage.logo.map fun l => { l with assetKey := "" } }
    endPage :=
      { m.endPage with
        backgroundImageAssetKey := ""
        logo := m.endPage.logo.map fun l => { l with assetKey := "" } } }

/-! ## Loading (`hydrateState`, `processProjectFile` in `pdf-service.ts`)

`URL.createObjectURL` is modelled by a capability `urlOf : AssetFile →
String` supplied by the environment. -/

/-- The `hydrateAsset` helper inside `hydrateState`. -/
def hydrateAsset (store : AssetStore) (urlOf : AssetFile → String)
    (assetKey : String) : String :=
  if assetKey == "" || strStarts assetKey "/images/" then assetKey
  else
    match getAssetFile store assetKey with
    | some f => urlOf f
    | none => ""

/-- `hydrateState` from `pdf-service.ts`: rebuild the display-only
references from the asset keys, leaving everything else as loaded. -/
def hydrateState (store : AssetStore) (urlOf : AssetFile → String)
    (s : ProjectState) : ProjectState :=
  { s with
    titlePage :=
      { s.titlePage with
        backgroundImage := hydrateAsset store urlOf s.titlePage.backgroundImageAssetKey
        logo := s.titlePage.logo.map fun l =>
          { l with src := hydrateAsset store urlOf l.assetKey } }
    endPage :=
      { s.endPage with
        backgroundImage := hydrateAsset store urlOf s.endPage.backgroundImageAssetKey
        logo := s.endPage.logo.map fun l =>
          { l with src := hydrateAsset store urlOf l.assetKey } }
    panels := s.panels.map fun p =>
      { p with image := hydrateAsset store urlOf p.imageAssetKey } }

/-- The backward-compatibility title backfill in the store's
`loadProject` action: an absent project title is derived from the title
page header, defaulting to a fixed literal. -/
def loadProjectBackfill (p : ProjectState) : ProjectState :=
  if p.projectTitle == "" then
    { p with projectTitle :=
        if p.titlePage.header == "" then "Untitled Project" else p.titlePage.header }
  else p

/-- `processProjectFile` from `pdf-service.ts`: clear the store, abort
with no loaded state when `project.json` is absent, otherwise register
every `assets/` entry under its own name, parse the manifest, hydrate
and load (with the title backfill).  The first component is the asset
store afterwards, the second the loaded snapshot (`none` = aborted).
The `store0` argument is the pre-existing store, discarded by the
initial `clearAssets()`. -/
def processProjectFile (urlOf : AssetFile → String) (archive : Archive)
    (store0 : AssetStore) : AssetStore × Option ProjectState :=
  let _ := store0
  let cleared := emptyStore
  match archive.manifest with
  | none => (cleared, none)
  | some m =>
    let store1 := archive.assets.foldl
      (fun st kv => setAsset kv.1 { name := kv.1, mime := kv.2.mime, data := kv.2.data } st)
      cleared
    let hydrated := hydrateState store1 urlOf (embedManifest m)
    (store1, some (loadProjectBackfill hydrated))

/-! ## Renderer: page geometry (`exportToPdf`, `drawPanelPage`) -/

def PDF_WIDTH : ℚ := 1024

def PDF_HEIGHT : ℚ := 768

def PAGE_MARGIN : ℚ := 40

/-- The end-page configuration chosen by `exportToPdf`: the end page
itself, or — when mirroring — the end page with the title page's
background image and a logo carrying the title logo's data at the end
page's own position (`'bottom-center'` when the end page has no logo;
JS `||` also replaces an empty position string). -/
def endPageConfig (s : ProjectState) : EndPage :=
  if s.endPage.mirrorTitlePage then
    { s.endPage with
      backgroundImage := s.titlePage.backgroundImage
      logo :=
        match s.titlePage.logo with
        | some tl =>
          let p := match s.endPage.logo with
            | some el => el.position
            | none => ""
          some { tl with position := if p == "" then "bottom-center" else p }
        | none => none }
  else s.endPage

/-- The chunking loop of `exportToPdf` (`for (i = 0; i < n; i += 6)
push(slice(i, i+6))`), written with explicit fuel so that it computes by
structural recursion; `panelChunks` supplies enough fuel. -/
def chunksOfSix (fuel : Nat) (l : List Panel) : List (List Panel) :=
  match fuel, l with
  | 0, _ => []
  | _ + 1, [] => []
  | fuel + 1, c :: cs => (c :: cs).take 6 :: chunksOfSix fuel ((c :: cs).drop 6)

/-- `panelChunks` from `exportToPdf`. -/
def panelChunks (panels : List Panel) : List (List Panel) :=
  chunksOfSix panels.length panels

/-- Shape of the chunk lengths as a function of the panel count (proof
helper). -/
def chunkLens : Nat → Nat → List Nat
  | 0, _ => []
  | _ + 1, 0 => []
  | f + 1, n + 1 => min 6 (n + 1) :: chunkLens f (n + 1 - 6)

/-- Grid geometry of `drawPanelPage` (3 columns, 2 rows, 20px gaps). -/
def panelWidth : ℚ := ((PDF_WIDTH - PAGE_MARGIN * 2) - (3 - 1) * 20) / 3

def panelHeight : ℚ := ((PDF_HEIGHT - PAGE_MARGIN * 2) - (2 - 1) * 20) / 2

/-- Column of the i-th panel of a page (`i % cols`). -/
def panelCol (i : Nat) : Nat := i % 3

/-- Row of the i-th panel of a page (`Math.floor(i / cols)`). -/
def panelRow (i : Nat) : Nat := i / 3

/-- X-coordinate of the i-th panel cell on a page. -/
def panelX (i : Nat) : ℚ := PAGE_MARGIN + (panelCol i : ℚ) * (panelWidth + 20)

/-- Y-coordinate of the i-th panel cell on a page. -/
def panelY (i : Nat) : ℚ := PAGE_MARGIN + (panelRow i : ℚ) * (panelHeight + 20)

/-! ## Renderer: image fitting

`drawTitlePage`/`drawEndPage` compute a cover fit of the background into
the fixed page; `drawPanelTemplate` computes a contain fit of the panel
image into its 16:9 container.  Both are embedded parametrically in the
box dimensions; positions are relative to the box origin. -/

/-- A computed draw rectangle: size and offset from the box origin. -/
structure FitBox where
  w : ℚ
  h : ℚ
  x : ℚ
  y : ℚ
  deriving Repr, DecidableEq

/-- The cover fit from `drawTitlePage` (and `drawEndPage`): a wider
image fills the page height and is cropped horizontally, otherwise it
fills the width and is cropped vertically. -/
def coverFit (pageW pageH imgW imgH : ℚ) : FitBox :=
  let pageAspect := pageW / pageH
  let imgAspect := imgW / imgH
  if pageAspect < imgAspect then
    let drawHeight := pageH
    let drawWidth := drawHeight * imgAspect
    { w := drawWidth, h := drawHeight, x := (pageW - drawWidth) / 2, y := 0 }
  else
    let drawWidth := pageW
    let drawHeight := drawWidth / imgAspect
    { w := drawWidth, h := drawHeight, x := 0, y := (pageH - drawHeight) / 2 }

/-- The contain ("letterbox/pillarbox") fit from `drawPanelTemplate`: a
wider image is width-constrained and vertically centered, otherwise
height-constrained and horizontally centered. -/
def containFit (boxW boxH imgW imgH : ℚ) : FitBox :=
  let boxAspect := boxW / boxH
  let imgAspect := imgW / imgH
  if boxAspect < imgAspect then
    let drawWidth := boxW
    let drawHeight := drawWidth / imgAspect
    { w := drawWidth, h := drawHeight, x := 0, y := (boxH - drawHeight) / 2 }
  else
    let drawHeight := boxH
    let drawWidth := drawHeight * imgAspect
    { w := drawWidth, h := drawHeight, x := (boxW - drawWidth) / 2, y := 0 }

/-! ## Renderer: rich-text layout (`drawPanelTemplate`)

The script is truncated to six source lines, split by the non-greedy
bracket pattern into plain/emphasis runs, and laid out word by word with
a mutable cursor.  `pdf.getTextWidth` becomes a measure capability
`String → Nat`; the box geometry becomes explicit parameters. -/

/-- The defensive 6-line cap: `panel.script.split('\n').slice(0, 6).join('\n')`. -/
def truncateScript (script : String) : String :=
  String.mk (joinChar '\n' ((splitOnChar '\n' script.toList).take 6))

/-- Characters before the first `]`, and the rest after it. -/
def splitClose : List Char → Option (List Char × List Char)
  | [] => none
  | c :: rest =>
    if c == ']' then some ([], rest)
    else (splitClose rest).map fun p => (c :: p.1, p.2)

/-- First match of the non-greedy pattern `\[[^]]*?\]`: the plain text
before the first `[` that is followed by some `]`, the bracket's inner
text, and the remainder.  `none` when no bracketed segment occurs (an
unclosed `[` has no `]` after it, so no later `[` can match either). -/
def findOpen : List Char → Option (List Char × List Char × List Char)
  | [] => none
  | c :: rest =>
    if c == '[' then
      match splitClose rest with
      | some (inner, after) => some ([], inner, after)
      | none => none
    else (findOpen rest).map fun p => (c :: p.1, p.2)

/-- JS `text.split(/(\[[\s\S]*?\])/g).filter(Boolean)`, written with
explicit fuel so that it computes by structural recursion; `tokenize`
supplies enough fuel (each match consumes at least two characters). -/
def tokenizeFuel : Nat → List Char → List String
  | 0, cs => if cs.isEmpty then [] else [String.mk cs]
  | fuel + 1, cs =>
    match findOpen cs with
    | none => if cs.isEmpty then [] else [String.mk cs]
    | some (plain, inner, after) =>
      (if plain.isEmpty then [] else [String.mk plain]) ++
        [String.mk ('[' :: (inner ++ [']']))] ++ tokenizeFuel fuel after

/-- The run tokenizer of `drawPanelTemplate`. -/
def tokenize (t : String) : List String :=
  tokenizeFuel t.toList.length t.toList

/-- The emphasis test: `part.startsWith('[') && part.endsWith(']')`. -/
def isAction (part : String) : Bool :=
  strStarts part "[" && strEnds part "]"

/-- Script box geometry handed to the layout loop: left cursor origin,
maximal text width, top cursor origin, lowest admissible baseline, and
line height. -/
structure LayoutParams where
  startX : Nat
  maxWidth : Nat
  startY : Nat
  maxY : Nat
  lineHeight : Nat
  deriving Repr, DecidableEq

/-- The layout cursor and the text drawn so far (text, x, y). -/
structure LayoutState where
  cx : Nat
  cy : Nat
  out : List (String × Nat × Nat)
  deriving Repr, DecidableEq

/-- `checkYBounds` from `drawPanelTemplate`. -/
def checkYBounds (P : LayoutParams) (s : LayoutState) : Bool :=
  s.cy ≤ P.maxY

/-- `newLine` from `drawPanelTemplate`. -/
def newLine (P : LayoutParams) (s : LayoutState) : LayoutState :=
  { s with cy := s.cy + P.lineHeight, cx := P.startX }

/-- The body of the word loop: append the word (with a leading space
unless at the line start) when it fits or the line is empty, otherwise
advance to a new line first and draw there if still in bounds. -/
def drawWordStep (P : LayoutParams) (measure : String → Nat)
    (s : LayoutState) (word : String) : LayoutState :=
  let wordWithSpace := if s.cx == P.startX then word else " " ++ word
  let wordWidth := measure wordWithSpace
  if P.startX < s.cx ∧ P.startX + P.maxWidth < s.cx + wordWidth then
    let s1 := newLine P s
    if checkYBounds P s1 then
      { s1 with
        out := s1.out ++ [(word, s1.cx, s1.cy)]
        cx := s1.cx + measure word }
    else s1
  else
    { s with
      out := s.out ++ [(wordWithSpace, s.cx, s.cy)]
      cx := s.cx + wordWidth }

/-- The word loop (`for j`), with its leading bounds check. -/
def wordsLoop (P : LayoutParams) (measure : String → Nat) :
    LayoutState → List String → LayoutState
  | s, [] => s
  | s, w :: ws =>
    if checkYBounds P s then wordsLoop P measure (drawWordStep P measure s w) ws
    else s

/-- JS `line.split(' ')` on the model strings. -/
def wordsOf (line : String) : List String :=
  (splitOnChar ' ' line.toList).map String.mk

/-- JS `text.split('\n')` on the model strings. -/
def linesOfStr (t : String) : List String :=
  (splitOnChar '\n' t.toList).map String.mk

/-- The line loop (`for i`): each line's words are packed, and a manual
newline is emitted between consecutive source lines. -/
def linesLoop (P : LayoutParams) (measure : String → Nat) :
    LayoutState → List String → LayoutState
  | s, [] => s
  | s, [l] =>
    if checkYBounds P s then wordsLoop P measure s (wordsOf l) else s
  | s, l :: l2 :: ls =>
    if checkYBounds P s then
      linesLoop P measure (newLine P (wordsLoop P measure s (wordsOf l))) (l2 :: ls)
    else s

/-- The run loop (`for part of parts`): emphasis runs are stripped of
their bracket delimiters (`part.slice(1, -1)`) before processing. -/
def partsLoop (P : LayoutParams) (measure : String → Nat) :
    LayoutState → List String → LayoutState
  | s, [] => s
  | s, p :: ps =>
    if checkYBounds P s then
      let textToProcess :=
        if isAction p then String.mk ((p.toList.drop 1).dropLast) else p
      partsLoop P measure (linesLoop P measure s (linesOfStr textToProcess)) ps
    else s

/-- The whole rich-text pipeline of `drawPanelTemplate` for one panel
script: truncate, tokenize, lay out from the box origin. -/
def scriptLayout (P : LayoutParams) (measure : String → Nat)
    (script : String) : LayoutState :=
  partsLoop P measure { cx := P.startX, cy := P.startY, out := [] }
    (tokenize (truncateScript script))

/-- A glyph-width-sum measure: the behaviour of `pdf.getTextWidth` for a
fixed font (sum of per-character advance widths). -/
def charMeasure (charW : Char → Nat) (s : String) : Nat :=
  (s.toList.map charW).sum

/-- Scanner for properly paired emphasis brackets: the flag records
whether the scan is inside a bracketed span. -/
def wbAux : Bool → List Char → Bool
  | false, [] => true
  | false, c :: cs =>
    if c == ']' then false
    else if c == '[' then wbAux true cs
    else wbAux false cs
  | true, [] => false
  | true, c :: cs =>
    if c == ']' then wbAux false cs
    else if c == '[' then false
    else wbAux true cs

/-- A script in which every bracket character is the delimiter of a
well-formed emphasis span. -/
def wellBracketed (s : String) : Bool :=
  wbAux false s.toList

/-- Bracket-freeness of a character list. -/
def noBr (l : List Char) : Prop :=
  '[' ∉ l ∧ ']' ∉ l

/-- Every drawn text in a layout output is bracket-free. -/
def TextsOK (out : List (String × Nat × Nat)) : Prop :=
  ∀ e ∈ out, noBr e.1.toList

/-! ## Helper lemmas on the string splitters -/

theorem splitOnChar_ne_nil (sep : Char) (cs : List Char) :
    splitOnChar sep cs ≠ [] := by
  cases cs with
  | nil => simp [splitOnChar]
  | cons c cs =>
    simp only [splitOnChar]
    split
    · simp
    · split
      · simp
      · simp

theorem joinChar_splitOnChar (sep : Char) (cs : List Char) :
    joinChar sep (splitOnChar sep cs) = cs := by
  induction cs with
  | nil => rfl
  | cons c cs ih =>
    simp only [splitOnChar]
    by_cases h : c == sep
    · have hsep : c = sep := by simpa using h
      subst hsep
      simp only [h, if_true]
      cases hs : splitOnChar c cs with
      | nil => exact absurd hs (splitOnChar_ne_nil c cs)
      | cons a as =>
        simp only [joinChar]
        cases as with
        | nil => rw [← hs] at *; simpa [joinChar] using ih
        | cons b bs => rw [← hs] at *; simpa [joinChar] using ih
    · simp only [h, if_false]
      cases hs : splitOnChar sep cs with
      | nil => exact absurd hs (splitOnChar_ne_nil sep cs)
      | cons a as =>
        rw [hs] at ih
        cases as with
        | nil => simpa [joinChar] using ih
        | cons b bs => simpa [joinChar] using ih

/-- Every character of a chunk of `splitOnChar` occurs in the input. -/
theorem mem_of_mem_splitOnChar (sep : Char) (cs : List Char) :
    ∀ l ∈ splitOnChar sep cs, ∀ c ∈ l, c ∈ cs := by
  induction cs with
  | nil =>
    intro l hl c hc
    simp [splitOnChar] at hl
    subst hl
    simp at hc
  | cons a as ih =>
    intro l hl c hc
    simp only [splitOnChar] at hl
    by_cases h : a == sep
    · simp only [h, if_true, List.mem_cons] at hl
      rcases hl with hl | hl
      · subst hl; simp at hc
      · exact List.mem_cons_of_mem a (ih l hl c hc)
    · simp only [h, if_false] at hl
      cases hs : splitOnChar sep as with
      | nil => exact absurd hs (splitOnChar_ne_nil sep as)
      | cons b bs =>
        rw [hs] at hl
        rcases List.mem_cons.mp hl with hl | hl
        · subst hl
          rcases List.mem_cons.mp hc with hc | hc
          · simp [hc]
          · exact List.mem_cons_of_mem a
              (ih b (by rw [hs]; exact List.mem_cons_self b bs) c hc)
        · exact List.mem_cons_of_mem a
            (ih l (by rw [hs]; exact List.mem_cons_of_mem b hl) c hc)

theorem strip_embedManifest (m : Manifest) : strip (embedManifest m) = m := by
  have hp : ∀ ps : List StrippedPanel,
      (ps.map fun p =>
        ({ id := p.id, image := "", imageAssetKey := p.imageAssetKey,
           script := p.script } : Panel)).map
        (fun p => ({ id := p.id, imageAssetKey := p.imageAssetKey,
                     script := p.script } : StrippedPanel)) = ps := by
    intro ps
    induction ps with
    | nil => rfl
    | cons p ps ih => cases p; simp [ih]
  cases m with
  | mk pt tp panels ep link =>
    cases tp with
    | mk hh sh bk lg1 =>
      cases ep with
      | mk bk2 lg2 tx st mr =>
        cases lg1 <;> cases lg2 <;>
          simp [strip, embedManifest, hp panels]

theorem not_mem_splitOnChar (sep : Char) (cs : List Char) :
    ∀ l ∈ splitOnChar sep cs, sep ∉ l := by
  induction cs with
  | nil =>
    intro l hl
    simp [splitOnChar] at hl
    simp [hl]
  | cons a as ih =>
    intro l hl
    simp only [splitOnChar] at hl
    by_cases h : a == sep
    · simp only [h, if_true, List.mem_cons] at hl
      rcases hl with hl | hl
      · simp [hl]
      · exact ih l hl
    · simp only [h, if_false] at hl
      cases hs : splitOnChar sep as with
      | nil => exact absurd hs (splitOnChar_ne_nil sep as)
      | cons b bs =>
        rw [hs] at hl
        rcases List.mem_cons.mp hl with hl | hl
        · subst hl
          intro hmem
          rcases List.mem_cons.mp hmem with hmem | hmem
          · exact absurd (beq_iff_eq.mpr hmem.symm) (by simpa using h)
          · exact ih b (by rw [hs]; exact List.mem_cons_self b bs) hmem
        · exact ih l (by rw [hs]; exact List.mem_cons_of_mem b hl)

theorem splitOnChar_of_not_mem (sep : Char) (cs : List Char) (h : sep ∉ cs) :
    splitOnChar sep cs = [cs] := by
  induction cs with
  | nil => rfl
  | cons a as ih =>
    have ha : (a == sep) = false := by
      apply beq_eq_false_iff_ne.mpr
      intro he
      exact h (by simp [he])
    have has : sep ∉ as := fun hmem => h (List.mem_cons_of_mem a hmem)
    simp [splitOnChar, ha, ih has]

theorem splitOnChar_append_sep (sep : Char) (l0 t : List Char) (h : sep ∉ l0) :
    splitOnChar sep (l0 ++ sep :: t) = l0 :: splitOnChar sep t := by
  induction l0 with
  | nil => simp [splitOnChar]
  | cons c l0 ih =>
    have hc : (c == sep) = false := by
      apply beq_eq_false_iff_ne.mpr
      intro he
      exact h (by simp [he])
    have hl0 : sep ∉ l0 := fun hmem => h (List.mem_cons_of_mem c hmem)
    simp [List.cons_append, splitOnChar, hc, ih hl0]

theorem splitOnChar_joinChar (sep : Char) (l : List (List Char)) (hne : l ≠ [])
    (hs : ∀ x ∈ l, sep ∉ x) : splitOnChar sep (joinChar sep l) = l := by
  induction l with
  | nil => exact absurd rfl hne
  | cons x l ih =>
    cases l with
    | nil =>
      simp only [joinChar]
      exact splitOnChar_of_not_mem sep x (hs x (List.mem_cons_self x []))
    | cons y l2 =>
      have hx : sep ∉ x := hs x (List.mem_cons_self x _)
      simp only [joinChar, splitOnChar_append_sep sep x _ hx]
      rw [ih (by simp) fun z hz => hs z (List.mem_cons_of_mem x hz)]

/-! ## C10 — hydration is a frame over the structural fields -/

theorem strip_hydrateState (store : AssetStore) (urlOf : AssetFile → String)
    (s : ProjectState) : strip (hydrateState store urlOf s) = strip s := by
  have hp : ∀ ps : List Panel,
      ((ps.map fun p => { p with image := hydrateAsset store urlOf p.imageAssetKey }).map
        fun p => ({ id := p.id, imageAssetKey := p.imageAssetKey,
                    script := p.script } : StrippedPanel)) =
      ps.map fun p => ({ id := p.id, imageAssetKey := p.imageAssetKey,
                         script := p.script } : StrippedPanel) := by
    intro ps
    induction ps with
    | nil => rfl
    | cons p ps ih => cases p; simp [ih]
  cases s with
  | mk pt tp panels ep link =>
    cases tp with
    | mk hh sh bg bk lg1 =>
      cases ep with
      | mk bg2 bk2 lg2 tx st mr =>
        cases lg1 <;> cases lg2 <;> simp [strip, hydrateState, hp]

/-- C10: for every loaded snapshot, hydration modifies only the
display-only fields: the manifest projection (project title, header and
subheader, every asset key, logo positions and sizes, panel ids,
scripts and order, and the boolean flags) of the hydrated state equals
that of the input state. -/
theorem c10_hydration_modifies_only_display_fields
    (store : AssetStore) (urlOf : AssetFile → String) (s : ProjectState) :
    strip (hydrateState store urlOf s) = strip s :=
  strip_hydrateState store urlOf s

/-! ## C8 — the six-line script cap -/

theorem linesOf_truncateScript (s : String) :
    splitOnChar '\n' (truncateScript s).toList =
      (splitOnChar '\n' s.toList).take 6 := by
  have h1 : (truncateScript s).toList =
      joinChar '\n' ((splitOnChar '\n' s.toList).take 6) := rfl
  rw [h1]
  apply splitOnChar_joinChar
  · cases hs : splitOnChar '\n' s.toList with
    | nil => exact absurd hs (splitOnChar_ne_nil _ _)
    | cons a as => simp
  · intro x hx
    exact not_mem_splitOnChar '\n' s.toList x (List.mem_of_mem_take hx)

/-- C8: the script is truncated to its first six newline-separated
source lines before any layout is performed; hence the layout of any
script agreeing with another on the first six lines is identical — in
particular a seven-line script is laid out from exactly its first six
lines. -/
theorem c8_script_cap (s1 s2 : String) (P : LayoutParams)
    (measure : String → Nat)
    (h : (splitOnChar '\n' s1.toList).take 6 =
         (splitOnChar '\n' s2.toList).take 6) :
    splitOnChar '\n' (truncateScript s1).toList =
      (splitOnChar '\n' s1.toList).take 6 ∧
    truncateScript s1 = truncateScript s2 ∧
    scriptLayout P measure s1 = scriptLayout P measure s2 := by
  have ht : truncateScript s1 = truncateScript s2 := by
    unfold truncateScript
    rw [h]
  exact ⟨linesOf_truncateScript s1, ht, by unfold scriptLayout; rw [ht]⟩

/-- Witness for C8: a seven-line script and its first six lines lay out
identically. -/
theorem c8_script_cap_witness :
    splitOnChar '\n' (truncateScript "a\nb\nc\nd\ne\nf\ng").toList =
      (splitOnChar '\n' ("a\nb\nc\nd\ne\nf\ng" : String).toList).take 6 ∧
    truncateScript "a\nb\nc\nd\ne\nf\ng" = truncateScript "a\nb\nc\nd\ne\nf" ∧
    scriptLayout ⟨10, 100, 5, 50, 14⟩ (charMeasure fun _ => 20) "a\nb\nc\nd\ne\nf\ng" =
      scriptLayout ⟨10, 100, 5, 50, 14⟩ (charMeasure fun _ => 20) "a\nb\nc\nd\ne\nf" :=
  c8_script_cap "a\nb\nc\nd\ne\nf\ng" "a\nb\nc\nd\ne\nf" ⟨10, 100, 5, 50, 14⟩
    (charMeasure fun _ => 20) (by decide)

/-! ## C5 — panel chunking into pages of six -/

theorem chunksOfSix_map_length : ∀ (fuel : Nat) (l : List Panel),
    (chunksOfSix fuel l).map List.length = chunkLens fuel l.length := by
  intro fuel
  induction fuel with
  | zero => intro l; rfl
  | succ f ih =>
    intro l
    cases l with
    | nil => rfl
    | cons a as =>
      simp only [chunksOfSix, List.map_cons, chunkLens, List.length_cons]
      rw [ih]
      simp only [List.length_take, List.length_drop, List.length_cons]

theorem chunksOfSix_flatten : ∀ (fuel : Nat) (l : List Panel),
    l.length ≤ fuel → (chunksOfSix fuel l).flatten = l := by
  intro fuel
  induction fuel with
  | zero =>
    intro l h
    have : l = [] := List.length_eq_zero.mp (Nat.le_zero.mp h)
    subst this
    rfl
  | succ f ih =>
    intro l h
    cases l with
    | nil => rfl
    | cons a as =>
      have hlen : ((a :: as).drop 6).length ≤ f := by
        simp only [List.length_drop, List.length_cons]
        simp only [List.length_cons] at h
        omega
      simp only [chunksOfSix, List.flatten_cons]
      rw [ih ((a :: as).drop 6) hlen]
      exact List.take_append_drop 6 (a :: as)

theorem chunksOfSix_mem : ∀ (fuel : Nat) (l : List Panel),
    ∀ c ∈ chunksOfSix fuel l, c ≠ [] ∧ c.length ≤ 6 := by
  intro fuel
  induction fuel with
  | zero => intro l c hc; simp [chunksOfSix] at hc
  | succ f ih =>
    intro l c hc
    cases l with
    | nil => simp [chunksOfSix] at hc
    | cons a as =>
      simp only [chunksOfSix, List.mem_cons] at hc
      rcases hc with hc | hc
      · subst hc
        constructor
        · simp
        · simp [List.length_take]
      · exact ih _ c hc

theorem chunksOfSix_nil_iff : ∀ (fuel : Nat),
    chunksOfSix fuel ([] : List Panel) = [] := by
  intro fuel
  cases fuel <;> rfl

theorem chunksOfSix_dropLast : ∀ (fuel : Nat) (l : List Panel),
    l.length ≤ fuel → ∀ c ∈ (chunksOfSix fuel l).dropLast, c.length = 6 := by
  intro fuel
  induction fuel with
  | zero => intro l h c hc; simp [chunksOfSix] at hc
  | succ f ih =>
    intro l h c hc
    cases l with
    | nil => simp [chunksOfSix] at hc
    | cons a as =>
      simp only [chunksOfSix] at hc
      cases hrest : chunksOfSix f ((a :: as).drop 6) with
      | nil => rw [hrest] at hc; simp at hc
      | cons r rs =>
        rw [hrest] at hc
        rcases List.mem_cons.mp (by simpa [List.dropLast] using hc) with hc2 | hc2
        · subst hc2
          have hlong : 6 < (a :: as).length := by
            by_contra hle
            push_neg at hle
            have : (a :: as).drop 6 = [] := List.drop_eq_nil_of_le hle
            rw [this, chunksOfSix_nil_iff] at hrest
            exact absurd hrest.symm (List.cons_ne_nil r rs)
          simp only [List.length_cons, List.length_take]
          simp only [List.length_cons] at hlong
          omega
        · have hlen : ((a :: as).drop 6).length ≤ f := by
            simp only [List.length_drop, List.length_cons]
            simp only [List.length_cons] at h
            omega
          exact ih ((a :: as).drop 6) hlen c (by rw [hrest]; exact hc2)

theorem panelWidth_add_gap_ne_zero : (panelWidth + 20 : ℚ) ≠ 0 := by
  norm_num [panelWidth, PDF_WIDTH, PAGE_MARGIN]

theorem panelHeight_add_gap_ne_zero : (panelHeight + 20 : ℚ) ≠ 0 := by
  norm_num [panelHeight, PDF_HEIGHT, PAGE_MARGIN]

/-- C5: panel pages chunk the panel sequence strictly in source order
into groups of six (every page non-empty with at most six panels, all
but the last exactly six, concatenating back to the original sequence),
the within-page cells are assigned row-major on a 3×2 grid at distinct
positions, and a 13-panel snapshot yields exactly the page loads
[6, 6, 1]. -/
theorem c5_panel_chunking (l13 : List Panel) (h13 : l13.length = 13) :
    (panelChunks l13).map List.length = [6, 6, 1] ∧
    (∀ l : List Panel, (panelChunks l).flatten = l) ∧
    (∀ l : List Panel, ∀ c ∈ panelChunks l, c ≠ [] ∧ c.length ≤ 6) ∧
    (∀ l : List Panel, ∀ c ∈ (panelChunks l).dropLast, c.length = 6) ∧
    (∀ i, i < 6 → panelCol i < 3 ∧ panelRow i < 2) ∧
    (∀ i, i < 5 → panelRow i < panelRow (i + 1) ∨
      (panelRow i = panelRow (i + 1) ∧ panelCol i < panelCol (i + 1))) ∧
    (∀ i, i < 6 → ∀ j, j < 6 → panelX i = panelX j → panelY i = panelY j → i = j) := by
  refine ⟨?_, ?_, ?_, ?_, ?_, ?_, ?_⟩
  · unfold panelChunks
    rw [chunksOfSix_map_length, h13]
    rfl
  · intro l
    exact chunksOfSix_flatten l.length l (Nat.le_refl _)
  · intro l c hc
    exact chunksOfSix_mem l.length l c hc
  · intro l c hc
    exact chunksOfSix_dropLast l.length l (Nat.le_refl _) c hc
  · decide
  · decide
  · intro i hi j hj hx hy
    have hcol : panelCol i = panelCol j := by
      unfold panelX at hx
      have := mul_right_cancel₀ panelWidth_add_gap_ne_zero
        (by linarith [hx] : (panelCol i : ℚ) * (panelWidth + 20) =
          (panelCol j : ℚ) * (panelWidth + 20))
      exact_mod_cast this
    have hrow : panelRow i = panelRow j := by
      unfold panelY at hy
      have := mul_right_cancel₀ panelHeight_add_gap_ne_zero
        (by linarith [hy] : (panelRow i : ℚ) * (panelHeight + 20) =
          (panelRow j : ℚ) * (panelHeight + 20))
      exact_mod_cast this
    have hd : ∀ i, i < 6 → ∀ j, j < 6 →
        panelCol i = panelCol j → panelRow i = panelRow j → i = j := by decide
    exact hd i hi j hj hcol hrow

/-- Witness for C5 at a concrete 13-panel list. -/
theorem c5_panel_chunking_witness :
    (panelChunks (List.replicate 13
      ({ id := "p", image := "", imageAssetKey := "", script := "" } : Panel))).map
        List.length = [6, 6, 1] :=
  (c5_panel_chunking _ (by simp)).1

/-! ## C6 — end-page mirroring -/

/-- C6: with `mirrorTitlePage` set, the end page is rendered from a
derived configuration carrying the title page's background and logo
image data, with the logo position taken from the end page's own logo
(falling back to the end page's default anchor `bottom-center`), and no
logo at all when the title page has none. -/
theorem c6_end_page_mirroring (s : ProjectState)
    (hm : s.endPage.mirrorTitlePage = true) :
    (endPageConfig s).backgroundImage = s.titlePage.backgroundImage ∧
    (s.titlePage.logo = none → (endPageConfig s).logo = none) ∧
    (∀ tl : Logo, s.titlePage.logo = some tl →
      ∃ lg : Logo, (endPageConfig s).logo = some lg ∧
        lg.src = tl.src ∧ lg.assetKey = tl.assetKey ∧ lg.size = tl.size ∧
        lg.position =
          (match s.endPage.logo with
           | some el => if el.position == "" then "bottom-center" else el.position
           | none => "bottom-center")) := by
  refine ⟨by simp [endPageConfig, hm], ?_, ?_⟩
  · intro h
    simp [endPageConfig, hm, h]
  · intro tl htl
    cases hel : s.endPage.logo with
    | none =>
      refine ⟨{ tl with position := "bottom-center" }, ?_, rfl, rfl, rfl, by simp [hel]⟩
      simp [endPageConfig, hm, htl, hel]
    | some el =>
      by_cases hp : el.position = ""
      · refine ⟨{ tl with position := "bottom-center" }, ?_, rfl, rfl, rfl, by simp [hel, hp]⟩
        simp [endPageConfig, hm, htl, hel, hp]
      · refine ⟨{ tl with position := el.position }, ?_, rfl, rfl, rfl, by simp [hel, hp]⟩
        simp [endPageConfig, hm, htl, hel, hp]

/-- Witness for C6: the spec's Scenario C — mirroring on, title logo
present, end logo absent — places the title logo image at the end
page's default `bottom-center` anchor. -/
theorem c6_end_page_mirroring_witness :
    (endPageConfig
      { projectTitle := "t"
        titlePage :=
          { header := "h", subHeader := "s", backgroundImage := "bgurl"
            backgroundImageAssetKey := "ubg.png"
            logo := some { src := "lurl", assetKey := "ul.png"
                           position := "top-left", size := "L" } }
        panels := []
        endPage :=
          { backgroundImage := "", backgroundImageAssetKey := ""
            logo := none, text := "The End", showText := true
            mirrorTitlePage := true }
        logoSizesLinked := true }).logo =
      some { src := "lurl", assetKey := "ul.png"
             position := "bottom-center", size := "L" } := by
  obtain ⟨-, -, h3⟩ := c6_end_page_mirroring
    { projectTitle := "t"
      titlePage :=
        { header := "h", subHeader := "s", backgroundImage := "bgurl"
          backgroundImageAssetKey := "ubg.png"
          logo := some { src := "lurl", assetKey := "ul.png"
                         position := "top-left", size := "L" } }
      panels := []
      endPage :=
        { backgroundImage := "", backgroundImageAssetKey := ""
          logo := none, text := "The End", showText := true
          mirrorTitlePage := true }
      logoSizesLinked := true } rfl
  obtain ⟨lg, hlg, hsrc, hkey, hsize, hpos⟩ := h3 _ rfl
  rw [hlg]
  cases lg
  simp only at hsrc hkey hsize hpos
  simp [hsrc, hkey, hsize, hpos]

/-! ## C9 — cover and contain fit invariants -/

/-- C9: for positive box and image dimensions, the cover fit never
undersizes (both draw dimensions at least the box's), the contain fit
never exceeds the box, both preserve the image's aspect ratio, and both
center the drawing (the offset splits the overshoot or slack evenly on
each axis; on the constraining axis the offset is zero because the
dimensions coincide). -/
theorem c9_fit_invariants (bw bh iw ih : ℚ)
    (hbw : 0 < bw) (hbh : 0 < bh) (hiw : 0 < iw) (hih : 0 < ih) :
    (bw ≤ (coverFit bw bh iw ih).w ∧ bh ≤ (coverFit bw bh iw ih).h ∧
     (coverFit bw bh iw ih).w * ih = iw * (coverFit bw bh iw ih).h ∧
     2 * (coverFit bw bh iw ih).x = bw - (coverFit bw bh iw ih).w ∧
     2 * (coverFit bw bh iw ih).y = bh - (coverFit bw bh iw ih).h) ∧
    ((containFit bw bh iw ih).w ≤ bw ∧ (containFit bw bh iw ih).h ≤ bh ∧
     (containFit bw bh iw ih).w * ih = iw * (containFit bw bh iw ih).h ∧
     2 * (containFit bw bh iw ih).x = bw - (containFit bw bh iw ih).w ∧
     2 * (containFit bw bh iw ih).y = bh - (containFit bw bh iw ih).h) := by
  have hbh0 : (bh : ℚ) ≠ 0 := ne_of_gt hbh
  have hih0 : (ih : ℚ) ≠ 0 := ne_of_gt hih
  have hiw0 : (iw : ℚ) ≠ 0 := ne_of_gt hiw
  constructor
  · unfold coverFit
    by_cases hcmp : bw / bh < iw / ih
    · have hlt : bw * ih < iw * bh := (div_lt_div_iff₀ hbh hih).mp hcmp
      simp only [hcmp, if_true]
      refine ⟨?_, le_refl bh, ?_, by ring, by ring⟩
      · rw [← mul_div_assoc, le_div_iff₀ hih]
        linarith
      · field_simp
        ring
    · have hle : iw * bh ≤ bw * ih := by
        have := (div_le_div_iff₀ hih hbh).mp (not_lt.mp hcmp)
        linarith
      simp only [hcmp, if_false]
      refine ⟨le_refl bw, ?_, ?_, by ring, by ring⟩
      · rw [div_div_eq_mul_div, le_div_iff₀ hiw]
        linarith
      · field_simp
  · unfold containFit
    by_cases hcmp : bw / bh < iw / ih
    · have hlt : bw * ih < iw * bh := (div_lt_div_iff₀ hbh hih).mp hcmp
      simp only [hcmp, if_true]
      refine ⟨le_refl bw, ?_, ?_, by ring, by ring⟩
      · rw [div_div_eq_mul_div, div_le_iff₀ hiw]
        linarith
      · field_simp
    · have hle : iw * bh ≤ bw * ih := by
        have := (div_le_div_iff₀ hih hbh).mp (not_lt.mp hcmp)
        linarith
      simp only [hcmp, if_false]
      refine ⟨?_, le_refl bh, ?_, by ring, by ring⟩
      · rw [← mul_div_assoc, div_le_iff₀ hih]
        linarith
      · field_simp
        ring

/-! ## C7 groundwork — the run tokenizer and bracket delimiters -/

theorem splitClose_some : ∀ (cs inner after : List Char),
    splitClose cs = some (inner, after) →
    cs = inner ++ ']' :: after ∧ ']' ∉ inner := by
  intro cs
  induction cs with
  | nil => intro inner after h; simp [splitClose] at h
  | cons c cs ih =>
    intro inner after h
    unfold splitClose at h
    by_cases hc : (c == ']') = true
    · rw [if_pos hc] at h
      have hc2 : c = ']' := by simpa using hc
      simp only [Option.some_inj, Prod.mk.injEq] at h
      obtain ⟨h1, h2⟩ := h
      subst hc2
      subst h1
      subst h2
      exact ⟨rfl, List.not_mem_nil _⟩
    · rw [if_neg hc] at h
      cases hsc : splitClose cs with
      | none => rw [hsc] at h; simp at h
      | some pa =>
        obtain ⟨i2, a2⟩ := pa
        rw [hsc] at h
        simp only [Option.map_some', Option.some_inj, Prod.mk.injEq] at h
        obtain ⟨h1, h2⟩ := h
        obtain ⟨hcs, hni⟩ := ih i2 a2 hsc
        subst h1
        subst h2
        refine ⟨by rw [List.cons_append, ← hcs], ?_⟩
        intro hmem
        rcases List.mem_cons.mp hmem with hm | hm
        · exact hc (beq_iff_eq.mpr hm.symm)
        · exact hni hm

theorem splitClose_none : ∀ cs : List Char, splitClose cs = none → ']' ∉ cs := by
  intro cs
  induction cs with
  | nil => intro _ h; simp at h
  | cons c cs ih =>
    intro h hmem
    unfold splitClose at h
    by_cases hc : (c == ']') = true
    · rw [if_pos hc] at h; simp at h
    · rw [if_neg hc] at h
      rcases List.mem_cons.mp hmem with hm | hm
      · exact hc (beq_iff_eq.mpr hm.symm)
      · cases hsc : splitClose cs with
        | none => exact ih hsc hm
        | some pa => rw [hsc] at h; simp at h

theorem findOpen_some : ∀ (cs p i a : List Char),
    findOpen cs = some (p, i, a) →
    cs = p ++ '[' :: (i ++ ']' :: a) ∧ '[' ∉ p ∧ ']' ∉ i := by
  intro cs
  induction cs with
  | nil => intro p i a h; simp [findOpen] at h
  | cons c cs ih =>
    intro p i a h
    unfold findOpen at h
    by_cases hc : (c == '[') = true
    · rw [if_pos hc] at h
      have hc2 : c = '[' := by simpa using hc
      cases hsc : splitClose cs with
      | none => rw [hsc] at h; simp at h
      | some pa =>
        obtain ⟨i2, a2⟩ := pa
        rw [hsc] at h
        simp only [Option.some_inj, Prod.mk.injEq] at h
        obtain ⟨h1, h2, h3⟩ := h
        obtain ⟨hcs, hni⟩ := splitClose_some cs i2 a2 hsc
        subst hc2
        subst h1
        subst h2
        subst h3
        exact ⟨by rw [hcs]; rfl, List.not_mem_nil _, hni⟩
    · rw [if_neg hc] at h
      cases hfo : findOpen cs with
      | none => rw [hfo] at h; simp at h
      | some t =>
        obtain ⟨p2, i2, a2⟩ := t
        rw [hfo] at h
        simp only [Option.map_some', Option.some_inj, Prod.mk.injEq] at h
        obtain ⟨h1, h2, h3⟩ := h
        obtain ⟨hcs, hnp, hni⟩ := ih p2 i2 a2 hfo
        subst h1
        subst h2
        subst h3
        refine ⟨by rw [List.cons_append, ← hcs], ?_, hni⟩
        intro hmem
        rcases List.mem_cons.mp hmem with hm | hm
        · exact hc (beq_iff_eq.mpr hm.symm)
        · exact hnp hm

theorem wbAux_true_mem : ∀ cs : List Char, wbAux true cs = true → ']' ∈ cs := by
  intro cs
  induction cs with
  | nil => intro h; simp [wbAux] at h
  | cons c cs ih =>
    intro h
    unfold wbAux at h
    by_cases hc : (c == ']') = true
    · have hc2 : c = ']' := by simpa using hc
      exact List.mem_cons.mpr (Or.inl hc2.symm)
    · rw [if_neg hc] at h
      by_cases hc2 : (c == '[') = true
      · rw [if_pos hc2] at h; simp at h
      · rw [if_neg hc2] at h
        exact List.mem_cons_of_mem c (ih h)

theorem wb_skip_plain : ∀ (p rest : List Char), '[' ∉ p →
    wbAux false (p ++ rest) = true → ']' ∉ p ∧ wbAux false rest = true := by
  intro p
  induction p with
  | nil => intro rest _ h; exact ⟨List.not_mem_nil _, h⟩
  | cons c p ih =>
    intro rest hp h
    have hc1 : ¬(c == '[') = true := fun hcc =>
      hp (by simp [show c = '[' from by simpa using hcc])
    rw [List.cons_append] at h
    unfold wbAux at h
    by_cases hc2 : (c == ']') = true
    · rw [if_pos hc2] at h; simp at h
    · rw [if_neg hc2, if_neg hc1] at h
      obtain ⟨hn, hw⟩ := ih rest (fun hm => hp (List.mem_cons_of_mem c hm)) h
      refine ⟨?_, hw⟩
      intro hmem
      rcases List.mem_cons.mp hmem with hm | hm
      · exact hc2 (beq_iff_eq.mpr hm.symm)
      · exact hn hm

theorem wb_after_open : ∀ (i a : List Char), ']' ∉ i →
    wbAux true (i ++ ']' :: a) = true → '[' ∉ i ∧ wbAux false a = true := by
  intro i
  induction i with
  | nil =>
    intro a _ h
    rw [List.nil_append] at h
    unfold wbAux at h
    rw [if_pos (by simp)] at h
    exact ⟨List.not_mem_nil _, h⟩
  | cons c i ih =>
    intro a hni h
    have hc2 : ¬(c == ']') = true := fun hcc =>
      hni (by simp [show c = ']' from by simpa using hcc])
    rw [List.cons_append] at h
    unfold wbAux at h
    rw [if_neg hc2] at h
    by_cases hc1 : (c == '[') = true
    · rw [if_pos hc1] at h; simp at h
    · rw [if_neg hc1] at h
      obtain ⟨hn, hw⟩ := ih a (fun hm => hni (List.mem_cons_of_mem c hm)) h
      refine ⟨?_, hw⟩
      intro hmem
      rcases List.mem_cons.mp hmem with hm | hm
      · exact hc1 (beq_iff_eq.mpr hm.symm)
      · exact hn hm

theorem wb_findOpen_none : ∀ cs : List Char, wbAux false cs = true →
    findOpen cs = none → '[' ∉ cs ∧ ']' ∉ cs := by
  intro cs
  induction cs with
  | nil => intro _ _; exact ⟨List.not_mem_nil _, List.not_mem_nil _⟩
  | cons c cs ih =>
    intro hwb h
    unfold findOpen at h
    by_cases hc : (c == '[') = true
    · rw [if_pos hc] at h
      cases hsc : splitClose cs with
      | some pa => rw [hsc] at h; simp at h
      | none =>
        have hc2 : c = '[' := by simpa using hc
        subst hc2
        unfold wbAux at hwb
        rw [if_neg (by simp), if_pos (by simp)] at hwb
        exact absurd (wbAux_true_mem cs hwb) (splitClose_none cs hsc)
    · rw [if_neg hc] at h
      cases hfo : findOpen cs with
      | some t => rw [hfo] at h; simp at h
      | none =>
        unfold wbAux at hwb
        by_cases hc2 : (c == ']') = true
        · rw [if_pos hc2] at hwb; simp at hwb
        · rw [if_neg hc2, if_neg hc] at hwb
          obtain ⟨h1, h2⟩ := ih hwb hfo
          constructor
          · intro hmem
            rcases List.mem_cons.mp hmem with hm | hm
            · exact hc (beq_iff_eq.mpr hm.symm)
            · exact h1 hm
          · intro hmem
            rcases List.mem_cons.mp hmem with hm | hm
            · exact hc2 (beq_iff_eq.mpr hm.symm)
            · exact h2 hm

theorem tokenizeFuel_safe : ∀ (fuel : Nat) (cs : List Char), cs.length ≤ fuel →
    wbAux false cs = true →
    ∀ p ∈ tokenizeFuel fuel cs,
      (∃ i, p = String.mk ('[' :: (i ++ [']'])) ∧ noBr i) ∨ noBr p.toList := by
  intro fuel
  induction fuel with
  | zero =>
    intro cs hlen hwb p hp
    have : cs = [] := List.length_eq_zero.mp (Nat.le_zero.mp hlen)
    subst this
    simp [tokenizeFuel] at hp
  | succ f ih =>
    intro cs hlen hwb p hp
    unfold tokenizeFuel at hp
    cases hfo : findOpen cs with
    | none =>
      rw [hfo] at hp
      by_cases hemp : cs.isEmpty = true
      · rw [if_pos hemp] at hp; simp at hp
      · rw [if_neg hemp] at hp
        simp only [List.mem_singleton] at hp
        subst hp
        exact Or.inr (wb_findOpen_none cs hwb hfo)
    | some t =>
      obtain ⟨p0, i, a⟩ := t
      rw [hfo] at hp
      obtain ⟨hcs, hnp, hni⟩ := findOpen_some cs p0 i a hfo
      subst hcs
      obtain ⟨hnp2, hw2⟩ := wb_skip_plain p0 _ hnp hwb
      have hw3 : wbAux true (i ++ ']' :: a) = true := by
        unfold wbAux at hw2
        rw [if_neg (by decide), if_pos (by decide)] at hw2
        exact hw2
      obtain ⟨hni2, hwa⟩ := wb_after_open i a hni hw3
      rcases List.mem_append.mp hp with hp1 | hp2
      · rcases List.mem_append.mp hp1 with hp0 | hpe
        · by_cases hpe0 : p0.isEmpty = true
          · rw [if_pos hpe0] at hp0; simp at hp0
          · rw [if_neg hpe0] at hp0
            simp only [List.mem_singleton] at hp0
            subst hp0
            exact Or.inr ⟨hnp, hnp2⟩
        · simp only [List.mem_singleton] at hpe
          subst hpe
          exact Or.inl ⟨i, rfl, hni2, hni⟩
      · refine ih a ?_ hwa p hp2
        simp only [List.length_append, List.length_cons] at hlen
        omega

theorem processed_noBr (p : String)
    (h : (∃ i, p = String.mk ('[' :: (i ++ [']'])) ∧ noBr i) ∨ noBr p.toList) :
    noBr (if isAction p then String.mk ((p.toList.drop 1).dropLast)
          else p).toList := by
  rcases h with ⟨i, rfl, hi⟩ | hno
  · have hact : isAction (String.mk ('[' :: (i ++ [']']))) = true := by
      unfold isAction strStarts strEnds
      rw [Bool.and_eq_true]
      constructor
      · show List.isPrefixOf ['['] ('[' :: (i ++ [']'])) = true
        simp [List.isPrefixOf]
      · show List.isPrefixOf [']'] ('[' :: (i ++ [']'])).reverse = true
        rw [List.reverse_cons, List.reverse_append]
        simp [List.isPrefixOf]
    rw [if_pos hact]
    have hdrop : ((String.mk ('[' :: (i ++ [']']))).toList.drop 1).dropLast = i := by
      show ((('[' :: (i ++ [']'])).drop 1).dropLast) = i
      simp
    rw [hdrop]
    exact hi
  · have hs : strStarts p "[" = false := by
      unfold strStarts
      cases hpl : p.toList with
      | nil => rfl
      | cons c l =>
        have hc : ('[' : Char) ≠ c :=
          fun he => hno.1 (by rw [hpl, ← he]; exact List.mem_cons_self _ _)
        simp [List.isPrefixOf, beq_eq_false_iff_ne.mpr hc]
    have hact : isAction p = false := by
      unfold isAction
      rw [hs]
      rfl
    rw [hact]
    simpa using hno

theorem drawWordStep_texts (P : LayoutParams) (m : String → Nat) (s : LayoutState)
    (word : String) (hs : TextsOK s.out) (hw : noBr word.toList) :
    TextsOK (drawWordStep P m s word).out := by
  have hws : noBr (if (s.cx == P.startX) = true then word
      else " " ++ word).toList := by
    split_ifs with h
    · exact hw
    · have happ : (" " ++ word).toList = ' ' :: word.toList := by
        show (" " ++ word).data = _
        rw [String.data_append]
        rfl
      rw [happ]
      constructor <;> intro hmem <;> rcases List.mem_cons.mp hmem with hm | hm
      · exact absurd hm.symm (by decide)
      · exact hw.1 hm
      · exact absurd hm.symm (by decide)
      · exact hw.2 hm
  have hout : (drawWordStep P m s word).out = s.out ∨
      (drawWordStep P m s word).out = s.out ++ [(word, P.startX, s.cy + P.lineHeight)] ∨
      (drawWordStep P m s word).out =
        s.out ++ [((if (s.cx == P.startX) = true then word else " " ++ word), s.cx, s.cy)] := by
    unfold drawWordStep newLine
    dsimp only
    split_ifs <;> simp
  intro e he
  rcases hout with ho | ho | ho <;> rw [ho] at he
  · exact hs e he
  · rcases List.mem_append.mp he with hm | hm
    · exact hs e hm
    · simp only [List.mem_singleton] at hm
      subst hm
      exact hw
  · rcases List.mem_append.mp he with hm | hm
    · exact hs e hm
    · simp only [List.mem_singleton] at hm
      subst hm
      exact hws

theorem wordsLoop_texts (P : LayoutParams) (m : String → Nat) :
    ∀ (ws : List String) (s : LayoutState), TextsOK s.out →
      (∀ w ∈ ws, noBr w.toList) → TextsOK (wordsLoop P m s ws).out := by
  intro ws
  induction ws with
  | nil => intro s hs _; exact hs
  | cons w ws ih =>
    intro s hs hw
    unfold wordsLoop
    split_ifs with h
    · exact ih _ (drawWordStep_texts P m s w hs (hw w (List.mem_cons_self w ws)))
        (fun w2 hw2 => hw w2 (List.mem_cons_of_mem w hw2))
    · exact hs

theorem wordsOf_noBr (l : String) (hl : noBr l.toList) :
    ∀ w ∈ wordsOf l, noBr w.toList := by
  intro w hw
  unfold wordsOf at hw
  obtain ⟨cl, hcl, hmk⟩ := List.mem_map.mp hw
  subst hmk
  exact ⟨fun hmem => hl.1 (mem_of_mem_splitOnChar ' ' l.toList cl hcl _ hmem),
    fun hmem => hl.2 (mem_of_mem_splitOnChar ' ' l.toList cl hcl _ hmem)⟩

theorem linesOfStr_noBr (t : String) (ht : noBr t.toList) :
    ∀ l ∈ linesOfStr t, noBr l.toList := by
  intro l hl
  unfold linesOfStr at hl
  obtain ⟨cl, hcl, hmk⟩ := List.mem_map.mp hl
  subst hmk
  exact ⟨fun hmem => ht.1 (mem_of_mem_splitOnChar '\n' t.toList cl hcl _ hmem),
    fun hmem => ht.2 (mem_of_mem_splitOnChar '\n' t.toList cl hcl _ hmem)⟩

theorem linesLoop_texts (P : LayoutParams) (m : String → Nat) :
    ∀ (ls : List String) (s : LayoutState), TextsOK s.out →
      (∀ l ∈ ls, noBr l.toList) → TextsOK (linesLoop P m s ls).out := by
  intro ls
  induction ls with
  | nil => intro s hs _; exact hs
  | cons l ls ih =>
    intro s hs hl
    cases ls with
    | nil =>
      unfold linesLoop
      split_ifs with h
      · exact wordsLoop_texts P m _ s hs
          (wordsOf_noBr l (hl l (List.mem_cons_self l [])))
      · exact hs
    | cons l2 ls2 =>
      unfold linesLoop
      split_ifs with h
      · refine ih _ ?_ (fun l3 hl3 => hl l3 (List.mem_cons_of_mem l hl3))
        show TextsOK (wordsLoop P m s (wordsOf l)).out
        exact wordsLoop_texts P m _ s hs
          (wordsOf_noBr l (hl l (List.mem_cons_self l _)))
      · exact hs

theorem partsLoop_texts (P : LayoutParams) (m : String → Nat) :
    ∀ (ps : List String) (s : LayoutState), TextsOK s.out →
      (∀ p ∈ ps, (∃ i, p = String.mk ('[' :: (i ++ [']'])) ∧ noBr i) ∨
        noBr p.toList) →
      TextsOK (partsLoop P m s ps).out := by
  intro ps
  induction ps with
  | nil => intro s hs _; exact hs
  | cons p ps ih =>
    intro s hs hp
    unfold partsLoop
    dsimp only
    by_cases h : checkYBounds P s = true
    · rw [if_pos h]
      refine ih _ ?_ (fun p2 hp2 => hp p2 (List.mem_cons_of_mem p hp2))
      exact linesLoop_texts P m _ s hs
        (linesOfStr_noBr _ (processed_noBr p (hp p (List.mem_cons_self p ps))))
    · rw [if_neg h]
      exact hs

/-- C7: the greedy word packer puts "aaaa bbbb" on two lines
["aaaa", "bbbb"] whenever the whole run overflows the box width but the
first word fits (glyph widths positive, box tall enough for two
lines); and for any measure and any script whose brackets all pair as
emphasis delimiters, no bracket delimiter appears in any laid-out
text. -/
theorem c7_word_wrap (P : LayoutParams) (charW : Char → Nat)
    (hm1 : P.maxWidth < charMeasure charW "aaaa bbbb")
    (hm2 : charMeasure charW "aaaa" ≤ P.maxWidth)
    (hpos : 0 < charMeasure charW "aaaa")
    (hy1 : P.startY ≤ P.maxY)
    (hy2 : P.startY + P.lineHeight ≤ P.maxY) :
    (scriptLayout P (charMeasure charW) "aaaa bbbb").out =
      [("aaaa", P.startX, P.startY),
       ("bbbb", P.startX, P.startY + P.lineHeight)] ∧
    (∀ (measure : String → Nat) (script : String),
      wellBracketed (truncateScript script) = true →
      ∀ e ∈ (scriptLayout P measure script).out,
        '[' ∉ e.1.toList ∧ ']' ∉ e.1.toList) := by
  constructor
  · set m := charMeasure charW with hmdef
    set a := m "aaaa" with hadef
    set b := m " bbbb" with hbdef
    have hadd : a + b = m "aaaa bbbb" := by
      rw [hadef, hbdef, hmdef]
      simp [charMeasure]
      ring
    have hc0 : checkYBounds P { cx := P.startX, cy := P.startY, out := [] } = true := by
      simpa [checkYBounds] using hy1
    have hc0b : checkYBounds P { cx := P.startX + a, cy := P.startY, out := [("aaaa", P.startX, P.startY)] } = true := by
      simpa [checkYBounds] using hy1
    have hw1 : drawWordStep P m { cx := P.startX, cy := P.startY, out := [] } "aaaa" =
        { cx := P.startX + a, cy := P.startY, out := [("aaaa", P.startX, P.startY)] } := by
      unfold drawWordStep
      dsimp only
      rw [if_pos (by simp : ((P.startX : Nat) == P.startX) = true)]
      rw [if_neg (by omega : ¬(P.startX < P.startX ∧
        P.startX + P.maxWidth < P.startX + m "aaaa"))]
      simp only [List.nil_append, ← hadef]
    have hb2 : ((P.startX + a : Nat) == P.startX) = false := by
      rw [beq_eq_false_iff_ne]
      omega
    have happ : (" " ++ "bbbb" : String) = " bbbb" := rfl
    have hcond : P.startX < P.startX + a ∧
        P.startX + P.maxWidth < (P.startX + a) + b := by
      constructor
      · omega
      · have : P.maxWidth < a + b := hadd ▸ hm1
        omega
    have hcy2 : checkYBounds P { cx := P.startX, cy := P.startY + P.lineHeight, out := [("aaaa", P.startX, P.startY)] } = true := by
      simpa [checkYBounds] using hy2
    have hw2 : drawWordStep P m { cx := P.startX + a, cy := P.startY, out := [("aaaa", P.startX, P.startY)] } "bbbb" =
        { cx := P.startX + m "bbbb", cy := P.startY + P.lineHeight, out := [("aaaa", P.startX, P.startY), ("bbbb", P.startX, P.startY + P.lineHeight)] } := by
      unfold drawWordStep newLine
      dsimp only
      rw [hb2]
      simp only [Bool.false_eq_true, if_false, happ]
      rw [← hbdef]
      rw [if_pos hcond]
      rw [if_pos hcy2]
      rfl
    have e1 : scriptLayout P m "aaaa bbbb" =
        partsLoop P m { cx := P.startX, cy := P.startY, out := [] } ["aaaa bbbb"] := by
      unfold scriptLayout
      rfl
    have e2 : partsLoop P m { cx := P.startX, cy := P.startY, out := [] }
        ["aaaa bbbb"] =
        linesLoop P m { cx := P.startX, cy := P.startY, out := [] }
          (linesOfStr "aaaa bbbb") := by
      unfold partsLoop
      dsimp only
      rw [if_pos hc0]
      rfl
    have e3 : linesLoop P m { cx := P.startX, cy := P.startY, out := [] }
        (linesOfStr "aaaa bbbb") =
        wordsLoop P m { cx := P.startX, cy := P.startY, out := [] }
          ["aaaa", "bbbb"] := by
      rw [show linesOfStr "aaaa bbbb" = ["aaaa bbbb"] from rfl]
      unfold linesLoop
      rw [if_pos hc0]
      rfl
    have e4 : wordsLoop P m { cx := P.startX, cy := P.startY, out := [] }
        ["aaaa", "bbbb"] =
        { cx := P.startX + m "bbbb", cy := P.startY + P.lineHeight, out := [("aaaa", P.startX, P.startY), ("bbbb", P.startX, P.startY + P.lineHeight)] } := by
      unfold wordsLoop
      rw [if_pos hc0, hw1]
      unfold wordsLoop
      rw [if_pos hc0b, hw2]
      rfl
    rw [e1, e2, e3, e4]
  · intro measure script hwb e he
    exact partsLoop_texts P measure (tokenize (truncateScript script))
      { cx := P.startX, cy := P.startY, out := [] }
      (by intro e2 he2; simp at he2)
      (tokenizeFuel_safe _ _ (le_refl _) hwb) e he

/-- Witness for C7: a concrete box and unit glyph widths; the scenario
run wraps into two lines, and a bracketed script lays out without its
delimiters. -/
theorem c7_word_wrap_witness :
    (scriptLayout ⟨10, 100, 5, 50, 14⟩ (charMeasure fun _ => 20) "aaaa bbbb").out =
      [("aaaa", 10, 5), ("bbbb", 10, 19)] ∧
    (∀ e ∈ (scriptLayout ⟨10, 100, 5, 50, 14⟩ (charMeasure fun _ => 20)
        "hi [there] all").out, '[' ∉ e.1.toList ∧ ']' ∉ e.1.toList) := by
  obtain ⟨h1, h2⟩ := c7_word_wrap ⟨10, 100, 5, 50, 14⟩ (fun _ => 20)
    (by decide) (by decide) (by decide) (by decide) (by decide)
  exact ⟨h1, h2 (charMeasure fun _ => 20) "hi [there] all" (by decide)⟩

/-- Witness for C9 at a concrete wide image in the 1024×768 page box. -/
theorem c9_fit_invariants_witness :
    (((1024 : ℚ) ≤ (coverFit 1024 768 1920 1080).w ∧
      (768 : ℚ) ≤ (coverFit 1024 768 1920 1080).h ∧
      (coverFit 1024 768 1920 1080).w * 1080 = 1920 * (coverFit 1024 768 1920 1080).h ∧
      2 * (coverFit 1024 768 1920 1080).x = 1024 - (coverFit 1024 768 1920 1080).w ∧
      2 * (coverFit 1024 768 1920 1080).y = 768 - (coverFit 1024 768 1920 1080).h) ∧
     ((containFit 1024 768 1920 1080).w ≤ 1024 ∧
      (containFit 1024 768 1920 1080).h ≤ 768 ∧
      (containFit 1024 768 1920 1080).w * 1080 = 1920 * (containFit 1024 768 1920 1080).h ∧
      2 * (containFit 1024 768 1920 1080).x = 1024 - (containFit 1024 768 1920 1080).w ∧
      2 * (containFit 1024 768 1920 1080).y = 768 - (containFit 1024 768 1920 1080).h)) :=
  c9_fit_invariants 1024 768 1920 1080 (by norm_num) (by norm_num) (by norm_num) (by norm_num)

/-! ## C2 — loading a package without a manifest -/

/-- Counterexample to C2 as stated: on a package without `project.json`
the load aborts, but the pre-existing asset store is not left
untouched — `clearAssets()` has already emptied it before the manifest
check. -/
theorem c2_counterexample :
    (processProjectFile (fun _ => "blob:x")
        { manifest := none, assets := [] }
        { files := [("k.png", { name := "k.png", mime := "image/png", data := [1] })]
          next := 1 }).2 = none ∧
    (processProjectFile (fun _ => "blob:x")
        { manifest := none, assets := [] }
        { files := [("k.png", { name := "k.png", mime := "image/png", data := [1] })]
          next := 1 }).1 ≠
      { files := [("k.png", { name := "k.png", mime := "image/png", data := [1] })]
        next := 1 } := by
  constructor
  · rfl
  · intro h
    have : (emptyStore : AssetStore).files = [("k.png",
        ({ name := "k.png", mime := "image/png", data := [1] } : AssetFile))] :=
      congrArg AssetStore.files h
    simp [emptyStore] at this

/-- C2 as amended: a package lacking a manifest entry aborts the load
with a validation error and no project state is loaded, but the asset
store has been cleared (emptied) by the time of the manifest check
rather than left untouched. -/
theorem c2_missing_manifest (urlOf : AssetFile → String) (a : Archive)
    (store0 : AssetStore) (h : a.manifest = none) :
    (processProjectFile urlOf a store0).2 = none ∧
    (processProjectFile urlOf a store0).1 = emptyStore := by
  unfold processProjectFile
  rw [h]
  exact ⟨rfl, rfl⟩

/-! ## Groundwork for the save pipeline (C1, C3, C4) -/

theorem lookupAsset_cases (files : List (String × AssetFile)) (k : String) :
    lookupAsset files k = none ∨
      ∃ f, lookupAsset files k = some f ∧ (k, f) ∈ files := by
  unfold lookupAsset
  cases hf : files.find? fun p => p.1 == k with
  | none => exact Or.inl rfl
  | some e =>
    right
    refine ⟨e.2, rfl, ?_⟩
    have hmem := List.mem_of_find?_eq_some hf
    have hkey := List.find?_some hf
    have : e.1 = k := by simpa using hkey
    cases e
    simp only at this
    rw [this] at hmem ⊢
    exact hmem

theorem lookupAsset_mapSet (files : List (String × AssetFile)) (k : String)
    (f : AssetFile) (k2 : String) :
    lookupAsset (mapSet files k f) k2 =
      if k2 = k then some f else lookupAsset files k2 := by
  have core : ∀ fs : List (String × AssetFile),
      List.find? (fun p => p.1 == k2) (fs.map fun p => if p.1 == k then (k, f) else p) =
        if k2 = k then (List.find? (fun p => p.1 == k) fs).map fun _ => (k, f)
        else List.find? (fun p => p.1 == k2) fs := by
    intro fs
    induction fs with
    | nil => by_cases h : k2 = k <;> simp [h]
    | cons a fs ih =>
      rw [List.map_cons]
      by_cases hak : a.1 = k
      · have hmapped : (if (a.1 == k) = true then (k, f) else a) = (k, f) := by
          simp [beq_iff_eq.mpr hak]
        rw [hmapped]
        by_cases hk2 : k2 = k
        · rw [@List.find?_cons_of_pos _ (fun p => p.1 == k2) (k, f) _
              (beq_iff_eq.mpr hk2.symm),
            if_pos hk2,
            @List.find?_cons_of_pos _ (fun p => p.1 == k) a _ (beq_iff_eq.mpr hak)]
          rfl
        · have hkk2 : ((k : String) == k2) = false :=
            beq_eq_false_iff_ne.mpr fun he => hk2 he.symm
          have hak2 : (a.1 == k2) = false := by rw [hak]; exact hkk2
          rw [@List.find?_cons_of_neg _ (fun p => p.1 == k2) (k, f) _ (by simp [hkk2]),
            ih, if_neg hk2, if_neg hk2,
            @List.find?_cons_of_neg _ (fun p => p.1 == k2) a _ (by simp [hak2])]
      · have hmapped : (if (a.1 == k) = true then (k, f) else a) = a := by
          simp [beq_eq_false_iff_ne.mpr hak]
        rw [hmapped]
        by_cases hk2 : a.1 = k2
        · have hk2k : ¬(k2 = k) := fun he => hak (hk2.trans he)
          rw [@List.find?_cons_of_pos _ (fun p => p.1 == k2) a _ (beq_iff_eq.mpr hk2),
            if_neg hk2k,
            @List.find?_cons_of_pos _ (fun p => p.1 == k2) a _ (beq_iff_eq.mpr hk2)]
        · rw [@List.find?_cons_of_neg _ (fun p => p.1 == k2) a _
              (by simp [beq_eq_false_iff_ne.mpr hk2]), ih]
          by_cases hkk : k2 = k
          · rw [if_pos hkk, if_pos hkk,
              @List.find?_cons_of_neg _ (fun p => p.1 == k) a _
                (by simp [beq_eq_false_iff_ne.mpr (fun he => hk2 (he.trans hkk.symm))])]
          · rw [if_neg hkk, if_neg hkk,
              @List.find?_cons_of_neg _ (fun p => p.1 == k2) a _
                (by simp [beq_eq_false_iff_ne.mpr hk2])]
  unfold mapSet lookupAsset
  by_cases hfind : (List.find? (fun p => p.1 == k) files).isSome = true
  · rw [if_pos hfind]
    rw [core files]
    by_cases hk2 : k2 = k
    · cases he : List.find? (fun p => p.1 == k) files with
      | none => rw [he] at hfind; simp at hfind
      | some e => simp [hk2, he]
    · simp [hk2]
  · rw [if_neg hfind]
    rw [List.find?_append]
    by_cases hk2 : k2 = k
    · subst hk2
      cases he : List.find? (fun p => p.1 == k2) files with
      | none => simp [Option.or]
      | some e => rw [he] at hfind; simp at hfind
    · cases he : List.find? (fun p => p.1 == k2) files with
      | none =>
        simp [Option.or, beq_eq_false_iff_ne.mpr (fun he2 => hk2 he2.symm), hk2]
      | some e => simp [Option.or, hk2]

theorem lookupAsset_setAsset (store : AssetStore) (k : String) (f : AssetFile)
    (k2 : String) :
    lookupAsset (setAsset k f store).files k2 =
      if k2 = k then some f else lookupAsset store.files k2 :=
  lookupAsset_mapSet store.files k f k2

theorem lookupAsset_mapSet_isSome (files : List (String × AssetFile))
    (k : String) (f : AssetFile) (k2 : String)
    (h : (lookupAsset files k2).isSome = true) :
    (lookupAsset (mapSet files k f) k2).isSome = true := by
  rw [lookupAsset_mapSet]
  by_cases hk : k2 = k <;> simp [hk, h]

theorem uuid_append_toList (n : Nat) (ext : String) :
    (uuidOf n ++ ext).toList = 'u' :: (List.replicate n 'x' ++ ext.toList) := by
  show (uuidOf n ++ ext).data = _
  rw [String.data_append]
  rfl

theorem uuid_key_not_default (n : Nat) (ext : String) :
    strStarts (uuidOf n ++ ext) "default-" = false := by
  unfold strStarts
  rw [uuid_append_toList]
  rfl

theorem uuid_key_ne_empty (n : Nat) (ext : String) : uuidOf n ++ ext ≠ "" := by
  intro h
  have := congrArg String.toList h
  rw [uuid_append_toList] at this
  simp at this

theorem addAsset_key (f : AssetFile) (store : AssetStore) :
    (addAsset f store).1 = uuidOf store.next ++ getFileExtension f.name := rfl

theorem addAsset_lookup_self (f : AssetFile) (store : AssetStore) :
    lookupAsset (addAsset f store).2.files (addAsset f store).1 = some f := by
  unfold addAsset
  simp only
  rw [lookupAsset_mapSet]
  simp

theorem addAsset_lookup_mono (f : AssetFile) (store : AssetStore) (k2 : String)
    (h : (lookupAsset store.files k2).isSome = true) :
    (lookupAsset (addAsset f store).2.files k2).isSome = true :=
  lookupAsset_mapSet_isSome store.files _ f k2 h

theorem cacheLookup_append_of_some (c : List (String × String)) (k v k2 w : String)
    (h : cacheLookup c k2 = some w) :
    cacheLookup (c ++ [(k, v)]) k2 = some w := by
  unfold cacheLookup at *
  rw [List.find?_append]
  cases he : List.find? (fun p => p.1 == k2) c with
  | none => rw [he] at h; simp at h
  | some e =>
    rw [he] at h
    simp [Option.or, ← h]

theorem cacheLookup_append_of_none (c : List (String × String)) (k v k2 : String)
    (h : cacheLookup c k2 = none) :
    cacheLookup (c ++ [(k, v)]) k2 = if k2 = k then some v else none := by
  unfold cacheLookup at *
  rw [List.find?_append]
  cases he : List.find? (fun p => p.1 == k2) c with
  | some e => rw [he] at h; simp at h
  | none =>
    by_cases hk : k2 = k
    · simp [Option.or, hk]
    · simp [Option.or, beq_eq_false_iff_ne.mpr (fun he2 => hk he2.symm), hk]

/-- Exhaustive case analysis of one `processAndMapAsset` call. -/
theorem pama_cases (fB : String → Option Blob) (key path : String) (st : SaveState) :
    (strStarts key "default-" = false ∧
      processAndMapAsset fB key path st = (key, st)) ∨
    (strStarts key "default-" = true ∧ ∃ v, cacheLookup st.cache key = some v ∧
      processAndMapAsset fB key path st = (v, st)) ∨
    (strStarts key "default-" = true ∧ cacheLookup st.cache key = none ∧ ∃ blob,
      fB path = some blob ∧
      processAndMapAsset fB key path st =
        ((addAsset (fetchedFile key path blob) st.store).1,
         { store := (addAsset (fetchedFile key path blob) st.store).2
           cache := st.cache ++ [(key, (addAsset (fetchedFile key path blob) st.store).1)]
           fetchLog := st.fetchLog ++ [key] })) ∨
    (strStarts key "default-" = true ∧ cacheLookup st.cache key = none ∧
      fB path = none ∧
      processAndMapAsset fB key path st =
        ("", { st with fetchLog := st.fetchLog ++ [key] })) := by
  unfold processAndMapAsset
  cases h1 : strStarts key "default-" with
  | false => exact Or.inl ⟨rfl, by simp⟩
  | true =>
    cases h2 : cacheLookup st.cache key with
    | some v => exact Or.inr (Or.inl ⟨rfl, v, rfl, by simp [h2]⟩)
    | none =>
      cases h3 : fB path with
      | some blob =>
        exact Or.inr (Or.inr (Or.inl ⟨rfl, rfl, blob, rfl, by simp [h2, h3]⟩))
      | none =>
        exact Or.inr (Or.inr (Or.inr ⟨rfl, rfl, rfl, by simp [h2, h3]⟩))

theorem pama_nonplaceholder (fB : String → Option Blob) (key path : String)
    (st : SaveState) (h : strStarts key "default-" = false) :
    processAndMapAsset fB key path st = (key, st) := by
  rcases pama_cases fB key path st with ⟨_, he⟩ | ⟨hp, _, _, _⟩ | ⟨hp, _, _, _, _⟩ |
    ⟨hp, _, _, _⟩ <;> first | exact he | (rw [h] at hp; exact absurd hp (by simp))

theorem pama_log_mono (fB : String → Option Blob) (key path : String)
    (st : SaveState) (k : String) (h : k ∈ st.fetchLog) :
    k ∈ (processAndMapAsset fB key path st).2.fetchLog := by
  rcases pama_cases fB key path st with ⟨_, he⟩ | ⟨_, v, _, he⟩ | ⟨_, _, blob, _, he⟩ |
    ⟨_, _, _, he⟩ <;> rw [he] <;> simp [h]

theorem pama_log_entries (fB : String → Option Blob) (key path : String)
    (st : SaveState) (k : String)
    (h : k ∈ (processAndMapAsset fB key path st).2.fetchLog) :
    k ∈ st.fetchLog ∨ (k = key ∧ strStarts key "default-" = true) := by
  rcases pama_cases fB key path st with ⟨_, he⟩ | ⟨_, v, _, he⟩ | ⟨hp, _, blob, _, he⟩ |
    ⟨hp, _, _, he⟩ <;> rw [he] at h
  · exact Or.inl h
  · exact Or.inl h
  · simp only [List.mem_append, List.mem_singleton] at h
    rcases h with h | h
    · exact Or.inl h
    · exact Or.inr ⟨h, hp⟩
  · simp only [List.mem_append, List.mem_singleton] at h
    rcases h with h | h
    · exact Or.inl h
    · exact Or.inr ⟨h, hp⟩

theorem pama_logs_key (fB : String → Option Blob) (key path : String)
    (st : SaveState) (hp : strStarts key "default-" = true)
    (hcl : CachedLogged st) :
    key ∈ (processAndMapAsset fB key path st).2.fetchLog := by
  rcases pama_cases fB key path st with ⟨hnp, he⟩ | ⟨_, v, hc, he⟩ |
    ⟨_, _, blob, _, he⟩ | ⟨_, _, _, he⟩
  · rw [hp] at hnp; exact absurd hnp (by simp)
  · rw [he]; exact hcl key v hc
  · rw [he]; simp
  · rw [he]; simp

theorem pama_cache_mono (fB : String → Option Blob) (key path : String)
    (st : SaveState) (k v : String) (h : cacheLookup st.cache k = some v) :
    cacheLookup (processAndMapAsset fB key path st).2.cache k = some v := by
  rcases pama_cases fB key path st with ⟨_, he⟩ | ⟨_, w, _, he⟩ | ⟨_, _, blob, _, he⟩ |
    ⟨_, _, _, he⟩ <;> rw [he]
  · exact h
  · exact h
  · exact cacheLookup_append_of_some _ _ _ _ _ h
  · exact h

theorem pama_store_mono (fB : String → Option Blob) (key path : String)
    (st : SaveState) (k2 : String)
    (h : (lookupAsset st.store.files k2).isSome = true) :
    (lookupAsset (processAndMapAsset fB key path st).2.store.files k2).isSome = true := by
  rcases pama_cases fB key path st with ⟨_, he⟩ | ⟨_, w, _, he⟩ | ⟨_, _, blob, _, he⟩ |
    ⟨_, _, _, he⟩ <;> rw [he]
  · exact h
  · exact h
  · exact addAsset_lookup_mono _ _ _ h
  · exact h

theorem pama_caches_result (fB : String → Option Blob) (key path : String)
    (st : SaveState) (hp : strStarts key "default-" = true)
    (hf : (fB path).isSome = true) :
    cacheLookup (processAndMapAsset fB key path st).2.cache key =
      some (processAndMapAsset fB key path st).1 := by
  rcases pama_cases fB key path st with ⟨hnp, he⟩ | ⟨_, v, hc, he⟩ |
    ⟨_, hc, blob, _, he⟩ | ⟨_, _, hn, he⟩
  · rw [hp] at hnp; exact absurd hnp (by simp)
  · rw [he]; exact hc
  · rw [he]
    simp only
    exact cacheLookup_append_of_none st.cache key _ key hc |>.trans (by simp)
  · rw [hn] at hf; simp at hf

theorem pama_cacheWF (fB : String → Option Blob) (key path : String)
    (st : SaveState) (h : CacheWF st) :
    CacheWF (processAndMapAsset fB key path st).2 := by
  rcases pama_cases fB key path st with ⟨_, he⟩ | ⟨_, v, _, he⟩ |
    ⟨_, hc, blob, _, he⟩ | ⟨_, _, _, he⟩ <;> rw [he]
  · exact h
  · exact h
  · intro p hp
    simp only [List.mem_append, List.mem_singleton] at hp
    rcases hp with hp | hp
    · obtain ⟨h1, h2, h3⟩ := h p hp
      exact ⟨h1, h2, addAsset_lookup_mono _ _ _ h3⟩
    · subst hp
      refine ⟨uuid_key_not_default _ _, uuid_key_ne_empty _ _, ?_⟩
      simp only
      rw [addAsset_lookup_self]
      rfl
  · exact h

theorem pama_cachedLogged (fB : String → Option Blob) (key path : String)
    (st : SaveState) (h : CachedLogged st) :
    CachedLogged (processAndMapAsset fB key path st).2 := by
  rcases pama_cases fB key path st with ⟨_, he⟩ | ⟨_, v, _, he⟩ |
    ⟨_, hc, blob, _, he⟩ | ⟨_, _, _, he⟩ <;> rw [he]
  · exact h
  · exact h
  · intro k v hkv
    simp only at hkv
    by_cases hk : k = key
    · simp [hk]
    · rcases hck : cacheLookup st.cache k with _ | w
      · rw [cacheLookup_append_of_none _ _ _ _ hck, if_neg hk] at hkv
        simp at hkv
      · simp only [List.mem_append, List.mem_singleton]
        exact Or.inl (h k w hck)
  · intro k v hkv
    simp only at hkv
    simp only [List.mem_append, List.mem_singleton]
    exact Or.inl (h k v hkv)

theorem pama_loggedCached (fB : String → Option Blob) (key path : String)
    (st : SaveState) (hf : (fB path).isSome = true) (h : LoggedCached st) :
    LoggedCached (processAndMapAsset fB key path st).2 := by
  rcases pama_cases fB key path st with ⟨_, he⟩ | ⟨_, v, _, he⟩ |
    ⟨_, hc, blob, _, he⟩ | ⟨_, _, hn, he⟩
  · rw [he]; exact h
  · rw [he]; exact h
  · rw [he]
    intro k hk
    simp only [List.mem_append, List.mem_singleton] at hk
    rcases hk with hk | hk
    · rcases hck : cacheLookup st.cache k with _ | w
      · have := h k hk
        rw [hck] at this
        simp at this
      · simp only
        rw [cacheLookup_append_of_some _ _ _ _ _ hck]
        rfl
    · subst hk
      simp only
      rw [cacheLookup_append_of_none _ _ _ _ hc]
      simp
  · rw [hn] at hf; simp at hf

theorem pama_nodup (fB : String → Option Blob) (key path : String)
    (st : SaveState) (hf : (fB path).isSome = true) (h : LoggedCached st)
    (hn : st.fetchLog.Nodup) :
    (processAndMapAsset fB key path st).2.fetchLog.Nodup := by
  rcases pama_cases fB key path st with ⟨_, he⟩ | ⟨_, v, _, he⟩ |
    ⟨_, hc, blob, _, he⟩ | ⟨_, _, hno, he⟩
  · rw [he]; exact hn
  · rw [he]; exact hn
  · rw [he]
    simp only
    rw [List.nodup_append]
    refine ⟨hn, List.nodup_singleton key, ?_⟩
    intro a ha hb
    simp only [List.mem_singleton] at hb
    subst hb
    have := h a ha
    rw [hc] at this
    simp at this
  · rw [hno] at hf; simp at hf

theorem pama_result_props (fB : String → Option Blob) (key path : String)
    (st : SaveState) (hp : strStarts key "default-" = true)
    (hf : (fB path).isSome = true) (hwf : CacheWF st) :
    strStarts (processAndMapAsset fB key path st).1 "default-" = false ∧
    (processAndMapAsset fB key path st).1 ≠ "" ∧
    (lookupAsset (processAndMapAsset fB key path st).2.store.files
      (processAndMapAsset fB key path st).1).isSome = true := by
  rcases pama_cases fB key path st with ⟨hnp, he⟩ | ⟨_, v, hc, he⟩ |
    ⟨_, hc, blob, _, he⟩ | ⟨_, _, hno, he⟩
  · rw [hp] at hnp; exact absurd hnp (by simp)
  · rw [he]
    have hmem : (key, v) ∈ st.cache := by
      unfold cacheLookup at hc
      cases hfind : List.find? (fun p => p.1 == key) st.cache with
      | none => rw [hfind] at hc; simp at hc
      | some e =>
        rw [hfind] at hc
        have hmem := List.mem_of_find?_eq_some hfind
        have hkey := List.find?_some hfind
        have h1 : e.1 = key := by simpa using hkey
        have h2 : e.2 = v := by simpa using hc
        cases e
        simp only at h1 h2
        rw [h1, h2] at hmem
        exact hmem
    exact hwf (key, v) hmem
  · rw [he]
    refine ⟨uuid_key_not_default _ _, uuid_key_ne_empty _ _, ?_⟩
    simp only
    rw [addAsset_lookup_self]
    rfl
  · rw [hno] at hf; simp at hf

theorem runSteps_cache_mono (fB : String → Option Blob) :
    ∀ (steps : List (String × String)) (st : SaveState) (k v : String),
      cacheLookup st.cache k = some v →
      cacheLookup (runSteps fB steps st).2.cache k = some v := by
  intro steps
  induction steps with
  | nil => intro st k v h; exact h
  | cons kp rest ih =>
    intro st k v h
    exact ih _ k v (pama_cache_mono fB kp.1 kp.2 st k v h)

theorem runSteps_store_mono (fB : String → Option Blob) :
    ∀ (steps : List (String × String)) (st : SaveState) (k2 : String),
      (lookupAsset st.store.files k2).isSome = true →
      (lookupAsset (runSteps fB steps st).2.store.files k2).isSome = true := by
  intro steps
  induction steps with
  | nil => intro st k2 h; exact h
  | cons kp rest ih =>
    intro st k2 h
    exact ih _ k2 (pama_store_mono fB kp.1 kp.2 st k2 h)

theorem runSteps_cacheWF (fB : String → Option Blob) :
    ∀ (steps : List (String × String)) (st : SaveState),
      CacheWF st → CacheWF (runSteps fB steps st).2 := by
  intro steps
  induction steps with
  | nil => intro st h; exact h
  | cons kp rest ih =>
    intro st h
    exact ih _ (pama_cacheWF fB kp.1 kp.2 st h)

theorem runSteps_spec (fB : String → Option Blob)
    (hF : ∀ p, (fB p).isSome = true) :
    ∀ (steps : List (String × String)) (st : SaveState), CacheWF st →
      ∀ pr ∈ (steps.map Prod.fst).zip (runSteps fB steps st).1,
        (strStarts pr.1 "default-" = false → pr.2 = pr.1) ∧
        (strStarts pr.1 "default-" = true →
          cacheLookup (runSteps fB steps st).2.cache pr.1 = some pr.2 ∧
          strStarts pr.2 "default-" = false ∧ pr.2 ≠ "" ∧
          (lookupAsset (runSteps fB steps st).2.store.files pr.2).isSome = true) := by
  intro steps
  induction steps with
  | nil => intro st hwf pr hpr; simp [runSteps] at hpr
  | cons kp rest ih =>
    intro st hwf pr hpr
    simp only [runSteps, List.map_cons, List.zip_cons_cons, List.mem_cons] at hpr ⊢
    rcases hpr with hpr | hpr
    · subst hpr
      constructor
      · intro hnp
        have := pama_nonplaceholder fB kp.1 kp.2 st hnp
        simp [this]
      · intro hp
        have hcache := pama_caches_result fB kp.1 kp.2 st hp (hF kp.2)
        obtain ⟨h1, h2, h3⟩ := pama_result_props fB kp.1 kp.2 st hp (hF kp.2) hwf
        exact ⟨runSteps_cache_mono fB rest _ _ _ hcache, h1, h2,
          runSteps_store_mono fB rest _ _ h3⟩
    · exact ih _ (pama_cacheWF fB kp.1 kp.2 st hwf) pr hpr

theorem runSteps_log_spec (fB : String → Option Blob)
    (hF : ∀ p, (fB p).isSome = true) :
    ∀ (steps : List (String × String)) (st : SaveState),
      CachedLogged st → LoggedCached st → st.fetchLog.Nodup →
      (runSteps fB steps st).2.fetchLog.Nodup ∧
      (∀ k, k ∈ (runSteps fB steps st).2.fetchLog ↔
        k ∈ st.fetchLog ∨
          (k ∈ steps.map Prod.fst ∧ strStarts k "default-" = true)) := by
  intro steps
  induction steps with
  | nil =>
    intro st hcl hlc hn
    exact ⟨hn, fun k => by simp [runSteps]⟩
  | cons kp rest ih =>
    intro st hcl hlc hn
    have hcl2 := pama_cachedLogged fB kp.1 kp.2 st hcl
    have hlc2 := pama_loggedCached fB kp.1 kp.2 st (hF kp.2) hlc
    have hn2 := pama_nodup fB kp.1 kp.2 st (hF kp.2) hlc hn
    obtain ⟨ihn, ihiff⟩ := ih (processAndMapAsset fB kp.1 kp.2 st).2 hcl2 hlc2 hn2
    refine ⟨ihn, ?_⟩
    intro k
    simp only [runSteps]
    rw [ihiff k]
    constructor
    · intro h
      rcases h with h | ⟨hmem, hpk⟩
      · rcases pama_log_entries fB kp.1 kp.2 st k h with h2 | ⟨h2, h3⟩
        · exact Or.inl h2
        · exact Or.inr ⟨by simp [h2], h2 ▸ h3⟩
      · exact Or.inr ⟨by simp [hmem], hpk⟩
    · intro h
      rcases h with h | ⟨hmem, hpk⟩
      · exact Or.inl (pama_log_mono fB kp.1 kp.2 st k h)
      · simp only [List.map_cons, List.mem_cons] at hmem
        rcases hmem with hk | hk
        · subst hk
          exact Or.inl (pama_logs_key fB kp.1 kp.2 st hpk hcl)
        · exact Or.inr ⟨hk, hpk⟩

theorem savePlaceholders_state_eq (fB : String → Option Blob) (s : ProjectState)
    (st0 : SaveState) :
    (savePlaceholders fB s st0).2 = (runSteps fB (stepList s) st0).2 := by
  cases hlg1 : s.titlePage.logo <;> cases hlg2 : s.endPage.logo <;>
    simp [savePlaceholders, processLogo, stepList, runSteps, hlg1, hlg2]

theorem keyPairs_bridge (fB : String → Option Blob) (s : ProjectState)
    (st0 : SaveState) :
    keyPairs s (savePlaceholders fB s st0).1 =
      ((stepList s).map Prod.fst).zip (runSteps fB (stepList s) st0).1 := by
  cases hlg1 : s.titlePage.logo <;> cases hlg2 : s.endPage.logo <;>
    simp [savePlaceholders, processLogo, stepList, runSteps, keyPairs, hlg1, hlg2]

theorem stepList_fst (s : ProjectState) :
    (stepList s).map Prod.fst = fieldKeys s := by
  cases hlg1 : s.titlePage.logo <;> cases hlg2 : s.endPage.logo <;>
    simp [stepList, fieldKeys, hlg1, hlg2]

theorem collect_go_mem : ∀ (keys acc : List String) (k : String),
    k ∈ keys.foldl collectStep acc ↔
      k ∈ acc ∨ (k ∈ keys ∧ k ≠ "" ∧ strStarts k "default-" = false) := by
  intro keys
  induction keys with
  | nil => intro acc k; simp
  | cons a keys ih =>
    intro acc k
    rw [List.foldl_cons, ih]
    unfold collectStep
    by_cases hcond : (a == "" || strStarts a "default-" || acc.contains a) = true
    · rw [if_pos hcond]
      simp only [Bool.or_eq_true, beq_iff_eq] at hcond
      constructor
      · intro h
        rcases h with h | ⟨hm, hg⟩
        · exact Or.inl h
        · exact Or.inr ⟨List.mem_cons_of_mem a hm, hg⟩
      · intro h
        rcases h with h | ⟨hm, hg⟩
        · exact Or.inl h
        · rcases List.mem_cons.mp hm with hk | hk
          · subst hk
            rcases hcond with (h1 | h2) | h3
            · exact absurd h1 hg.1
            · rw [h2] at hg; exact absurd hg.2 (by simp)
            · exact Or.inl (by simpa using h3)
          · exact Or.inr ⟨hk, hg⟩
    · rw [if_neg hcond]
      simp only [Bool.or_eq_true, beq_iff_eq, not_or] at hcond
      obtain ⟨⟨h1, h2⟩, h3⟩ := hcond
      constructor
      · intro h
        rcases h with h | ⟨hm, hg⟩
        · rcases List.mem_append.mp h with h | h
          · exact Or.inl h
          · simp only [List.mem_singleton] at h
            subst h
            exact Or.inr ⟨List.mem_cons_self _ _, h1,
              by simpa using (Bool.not_eq_true _).mp h2⟩
        · exact Or.inr ⟨List.mem_cons_of_mem a hm, hg⟩
      · intro h
        rcases h with h | ⟨hm, hg⟩
        · exact Or.inl (List.mem_append.mpr (Or.inl h))
        · rcases List.mem_cons.mp hm with hk | hk
          · subst hk
            exact Or.inl (List.mem_append.mpr (Or.inr (by simp)))
          · exact Or.inr ⟨hk, hg⟩

theorem collect_go_nodup : ∀ (keys acc : List String),
    acc.Nodup → (keys.foldl collectStep acc).Nodup := by
  intro keys
  induction keys with
  | nil => intro acc h; exact h
  | cons a keys ih =>
    intro acc h
    rw [List.foldl_cons]
    unfold collectStep
    by_cases hcond : (a == "" || strStarts a "default-" || acc.contains a) = true
    · rw [if_pos hcond]; exact ih acc h
    · rw [if_neg hcond]
      apply ih
      rw [List.nodup_append]
      refine ⟨h, List.nodup_singleton a, ?_⟩
      intro x hx hxa
      simp only [List.mem_singleton] at hxa
      subst hxa
      simp only [Bool.or_eq_true, not_or] at hcond
      exact hcond.2 (by simpa using hx)

theorem collectAssets_mem (s : ProjectState) (k : String) :
    k ∈ collectAssets s ↔
      k ∈ collectKeys s ∧ k ≠ "" ∧ strStarts k "default-" = false := by
  unfold collectAssets
  rw [collect_go_mem]
  simp

theorem collectAssets_nodup (s : ProjectState) : (collectAssets s).Nodup :=
  collect_go_nodup (collectKeys s) [] List.nodup_nil

theorem entries_map_fst : ∀ (ref : List String) (files : List (String × AssetFile)),
    (∀ k ∈ ref, (lookupAsset files k).isSome = true) →
    (ref.filterMap fun k => (lookupAsset files k).map fun f => (k, f)).map
      Prod.fst = ref := by
  intro ref files
  induction ref with
  | nil => intro h; rfl
  | cons a ref ih =>
    intro h
    have ha := h a (List.mem_cons_self a ref)
    cases hl : lookupAsset files a with
    | none => rw [hl] at ha; simp at ha
    | some f =>
      simp only [List.filterMap_cons, hl, Option.map_some']
      rw [List.map_cons]
      rw [ih fun k hk => h k (List.mem_cons_of_mem a hk)]

theorem processLogo_cacheWF (fB : String → Option Blob) (lg : Option Logo)
    (st : SaveState) (h : CacheWF st) : CacheWF (processLogo fB lg st).2 := by
  cases lg with
  | none => exact h
  | some l => exact pama_cacheWF fB l.assetKey defaultLogoPath st h

theorem initial_cachedLogged (store0 : AssetStore) :
    CachedLogged { store := store0, cache := [], fetchLog := [] } := by
  intro k v h
  simp [cacheLookup] at h

theorem initial_loggedCached (store0 : AssetStore) :
    LoggedCached { store := store0, cache := [], fetchLog := [] } := by
  intro k hk
  simp at hk

theorem initial_cacheWF (store0 : AssetStore) :
    CacheWF { store := store0, cache := [], fetchLog := [] } := by
  intro p hp
  simp at hp

/-- C4: during one save every placeholder reference is materialized by
fetching exactly once per distinct placeholder key (the fetch log is
duplicate-free and holds exactly the placeholder keys among the four
page-level slots), each placeholder slot is rewritten to a fresh
non-placeholder key registered in the store while real keys pass
through untouched; and a failed fetch leaves that slot empty while the
rest of the save continues (panels and title intact, manifest still
produced, and another placeholder slot whose fetch succeeds is still
materialized). -/
theorem c4_placeholder_materialization
    (fB : String → Option Blob) (S : ProjectState) (store0 : AssetStore)
    (R : SaveResult) (hR : R = saveProject fB S store0)
    (hF : ∀ p, (fB p).isSome = true) :
    R.fetchLog.Nodup ∧
    (∀ k, k ∈ R.fetchLog ↔ k ∈ fieldKeys S ∧ strStarts k "default-" = true) ∧
    (∀ pr ∈ keyPairs S R.savable,
      (strStarts pr.1 "default-" = false → pr.2 = pr.1) ∧
      (strStarts pr.1 "default-" = true →
        strStarts pr.2 "default-" = false ∧ pr.2 ≠ "" ∧
        (lookupAsset R.store.files pr.2).isSome = true)) ∧
    (∀ (fB2 : String → Option Blob) (S2 : ProjectState) (store2 : AssetStore),
      fB2 defaultBackgroundPath = none →
      strStarts S2.titlePage.backgroundImageAssetKey "default-" = true →
      (saveProject fB2 S2 store2).savable.titlePage.backgroundImageAssetKey = "" ∧
      (saveProject fB2 S2 store2).savable.panels = S2.panels ∧
      (saveProject fB2 S2 store2).savable.projectTitle = S2.projectTitle ∧
      (saveProject fB2 S2 store2).manifest =
        strip (saveProject fB2 S2 store2).savable ∧
      (∀ el : Logo, S2.endPage.logo = some el →
        strStarts el.assetKey "default-" = true →
        (fB2 defaultLogoPath).isSome = true →
        ∃ lg : Logo, (saveProject fB2 S2 store2).savable.endPage.logo = some lg ∧
          strStarts lg.assetKey "default-" = false ∧ lg.assetKey ≠ "")) := by
  subst hR
  have hlog : (saveProject fB S store0).fetchLog =
      (runSteps fB (stepList S) { store := store0, cache := [], fetchLog := [] }).2.fetchLog :=
    congrArg SaveState.fetchLog (savePlaceholders_state_eq fB S _)
  have hstore : (saveProject fB S store0).store =
      (runSteps fB (stepList S) { store := store0, cache := [], fetchLog := [] }).2.store :=
    congrArg SaveState.store (savePlaceholders_state_eq fB S _)
  obtain ⟨hnodup, hiff⟩ := runSteps_log_spec fB hF (stepList S)
    { store := store0, cache := [], fetchLog := [] }
    (initial_cachedLogged store0) (initial_loggedCached store0) List.nodup_nil
  refine ⟨?_, ?_, ?_, ?_⟩
  · rw [hlog]; exact hnodup
  · intro k
    rw [hlog, hiff k, stepList_fst]
    simp
  · intro pr hpr
    have hb := keyPairs_bridge fB S { store := store0, cache := [], fetchLog := [] }
    have hpr2 : pr ∈ ((stepList S).map Prod.fst).zip
        (runSteps fB (stepList S) { store := store0, cache := [], fetchLog := [] }).1 := by
      rw [← hb]; exact hpr
    obtain ⟨h1, h2⟩ := runSteps_spec fB hF (stepList S) _ (initial_cacheWF store0) pr hpr2
    refine ⟨h1, fun hp => ?_⟩
    obtain ⟨_, h3, h4, h5⟩ := h2 hp
    exact ⟨h3, h4, by rw [hstore]; exact h5⟩
  · intro fB2 S2 store2 hfail hpk
    have htb : (saveProject fB2 S2 store2).savable.titlePage.backgroundImageAssetKey =
        (processAndMapAsset fB2 S2.titlePage.backgroundImageAssetKey
          defaultBackgroundPath { store := store2, cache := [], fetchLog := [] }).1 := rfl
    have htb0 : (processAndMapAsset fB2 S2.titlePage.backgroundImageAssetKey
        defaultBackgroundPath { store := store2, cache := [], fetchLog := [] }).1 = "" := by
      rcases pama_cases fB2 S2.titlePage.backgroundImageAssetKey defaultBackgroundPath
        { store := store2, cache := [], fetchLog := [] } with
        ⟨hnp, he⟩ | ⟨_, v, hc, he⟩ | ⟨_, hc, blob, hf, he⟩ | ⟨_, _, _, he⟩
      · rw [hpk] at hnp; exact absurd hnp (by simp)
      · simp [cacheLookup] at hc
      · rw [hfail] at hf; exact absurd hf (by simp)
      · rw [he]
    refine ⟨htb.trans htb0, rfl, rfl, rfl, ?_⟩
    intro el hel hpkel hfl
    have hwfX : CacheWF (processAndMapAsset fB2 S2.endPage.backgroundImageAssetKey
        defaultBackgroundPath
        (processLogo fB2 S2.titlePage.logo
          (processAndMapAsset fB2 S2.titlePage.backgroundImageAssetKey
            defaultBackgroundPath { store := store2, cache := [], fetchLog := [] }).2).2).2 :=
      pama_cacheWF _ _ _ _
        (processLogo_cacheWF _ _ _ (pama_cacheWF _ _ _ _ (initial_cacheWF store2)))
    obtain ⟨p1, p2, _⟩ := pama_result_props fB2 el.assetKey defaultLogoPath _
      hpkel hfl hwfX
    refine ⟨{ el with assetKey := (processAndMapAsset fB2 el.assetKey defaultLogoPath
      (processAndMapAsset fB2 S2.endPage.backgroundImageAssetKey defaultBackgroundPath
        (processLogo fB2 S2.titlePage.logo
          (processAndMapAsset fB2 S2.titlePage.backgroundImageAssetKey
            defaultBackgroundPath { store := store2, cache := [], fetchLog := [] }).2).2).2).1 },
      ?_, p1, p2⟩
    show (processLogo fB2 S2.endPage.logo _).1 = _
    rw [hel]
    rfl

/-- Witness for C4 at the sample state: duplicate-free fetch log, the
log-membership characterization for the shared background placeholder,
and the failed-fetch degradation with the save continuing. -/
theorem c4_placeholder_materialization_witness :
    (saveProject fetchOk sampleState sampleStore).fetchLog.Nodup ∧
    ("default-background" ∈ (saveProject fetchOk sampleState sampleStore).fetchLog ↔
      "default-background" ∈ fieldKeys sampleState ∧
        strStarts "default-background" "default-" = true) ∧
    (saveProject fetchNoBg sampleState sampleStore).savable.titlePage.backgroundImageAssetKey
      = "" ∧
    (saveProject fetchNoBg sampleState sampleStore).savable.panels = sampleState.panels ∧
    (saveProject fetchNoBg sampleState sampleStore).savable.projectTitle =
      sampleState.projectTitle := by
  obtain ⟨h1, h2, _, _⟩ := c4_placeholder_materialization fetchOk sampleState sampleStore
    _ rfl (fun p => rfl)
  obtain ⟨g1, g2, g3, _, _⟩ :=
    (c4_placeholder_materialization fetchOk sampleState sampleStore _ rfl
      (fun p => rfl)).2.2.2 fetchNoBg sampleState sampleStore (by rfl) (by rfl)
  exact ⟨h1, h2 "default-background", g1, g2, g3⟩

theorem keyPairs_fst_mem (s sav : ProjectState) :
    ∀ k ∈ (keyPairs s sav).map Prod.fst, k ∈ fieldKeys s := by
  intro k hk
  cases h1 : s.titlePage.logo <;> cases h2 : sav.titlePage.logo <;>
    cases h3 : s.endPage.logo <;> cases h4 : sav.endPage.logo <;>
    simp [keyPairs, fieldKeys, h1, h2, h3, h4] at hk ⊢ <;> tauto

theorem fieldKeys_sub_collectKeys (s : ProjectState) :
    ∀ k ∈ fieldKeys s, k ∈ collectKeys s := by
  intro k hk
  cases h1 : s.titlePage.logo <;> cases h3 : s.endPage.logo <;>
    simp [fieldKeys, collectKeys, h1, h3] at hk ⊢ <;> tauto

theorem panelKeys_sub_collectKeys (s : ProjectState) :
    ∀ k ∈ s.panels.map (·.imageAssetKey), k ∈ collectKeys s := by
  intro k hk
  unfold collectKeys
  simp only [List.mem_append]
  exact Or.inr hk

theorem collectKeys_savable (fB : String → Option Blob) (s : ProjectState)
    (st0 : SaveState) :
    ∀ k, k ∈ collectKeys (savePlaceholders fB s st0).1 →
      k ∈ (keyPairs s (savePlaceholders fB s st0).1).map Prod.snd ∨
      k ∈ s.panels.map (·.imageAssetKey) := by
  intro k hk
  cases h1 : s.titlePage.logo <;> cases h3 : s.endPage.logo <;>
    simp [collectKeys, keyPairs, savePlaceholders, processLogo, h1, h3] at hk ⊢ <;>
    tauto

/-- C3: after a save with successful fetches, on a snapshot whose real
reachable keys all resolve in the store, the `assets/` entry names are
exactly the referenced-key set: in order, without duplicates, and the
referenced set holds precisely the distinct non-empty non-placeholder
keys reachable from the rewritten savable copy. -/
theorem c3_reachability (fB : String → Option Blob) (S : ProjectState)
    (store0 : AssetStore) (R : SaveResult) (hR : R = saveProject fB S store0)
    (hF : ∀ p, (fB p).isSome = true)
    (hResolve : ∀ k ∈ collectKeys S, k ≠ "" → strStarts k "default-" = false →
      (lookupAsset store0.files k).isSome = true) :
    R.entries.map Prod.fst = R.referenced ∧
    R.referenced.Nodup ∧
    (∀ k, k ∈ R.referenced ↔
      k ∈ collectKeys R.savable ∧ k ≠ "" ∧ strStarts k "default-" = false) := by
  subst hR
  have hstore : (saveProject fB S store0).store =
      (runSteps fB (stepList S) { store := store0, cache := [], fetchLog := [] }).2.store :=
    congrArg SaveState.store (savePlaceholders_state_eq fB S _)
  have hall : ∀ k ∈ collectAssets (saveProject fB S store0).savable,
      (lookupAsset (saveProject fB S store0).store.files k).isSome = true := by
    intro k hk
    obtain ⟨hmem, hne, hnpk⟩ :=
      (collectAssets_mem (saveProject fB S store0).savable k).mp hk
    rcases collectKeys_savable fB S { store := store0, cache := [], fetchLog := [] }
      k hmem with hsnd | hpanel
    · obtain ⟨pr, hpr, hk2⟩ := List.mem_map.mp hsnd
      subst hk2
      have hpr2 : pr ∈ ((stepList S).map Prod.fst).zip
          (runSteps fB (stepList S) { store := store0, cache := [], fetchLog := [] }).1 := by
        rw [← keyPairs_bridge fB S { store := store0, cache := [], fetchLog := [] }]
        exact hpr
      obtain ⟨h1, h2⟩ := runSteps_spec fB hF (stepList S) _ (initial_cacheWF store0) pr hpr2
      cases hpk : strStarts pr.1 "default-" with
      | true =>
        obtain ⟨_, _, _, h5⟩ := h2 hpk
        rw [hstore]
        exact h5
      | false =>
        have heq : pr.2 = pr.1 := h1 hpk
        have hfield : pr.1 ∈ fieldKeys S :=
          keyPairs_fst_mem S _ pr.1 (List.mem_map_of_mem Prod.fst hpr)
        have hres := hResolve pr.1 (fieldKeys_sub_collectKeys S pr.1 hfield)
          (by rw [← heq]; exact hne) hpk
        rw [hstore, heq]
        exact runSteps_store_mono fB (stepList S) _ pr.1 hres
    · have hres := hResolve k (panelKeys_sub_collectKeys S k hpanel) hne hnpk
      rw [hstore]
      exact runSteps_store_mono fB (stepList S) _ k hres
  refine ⟨entries_map_fst _ _ hall, collectAssets_nodup _, fun k => collectAssets_mem _ k⟩

/-- Witness for C3 at the sample state and store. -/
theorem c3_reachability_witness :
    (saveProject fetchOk sampleState sampleStore).entries.map Prod.fst =
      (saveProject fetchOk sampleState sampleStore).referenced ∧
    (saveProject fetchOk sampleState sampleStore).referenced.Nodup ∧
    ("u7.png" ∈ (saveProject fetchOk sampleState sampleStore).referenced ↔
      "u7.png" ∈ collectKeys (saveProject fetchOk sampleState sampleStore).savable ∧
        "u7.png" ≠ "" ∧ strStarts "u7.png" "default-" = false) := by
  obtain ⟨h1, h2, h3⟩ := c3_reachability fetchOk sampleState sampleStore _ rfl
    (fun p => rfl) (by decide)
  exact ⟨h1, h2, h3 "u7.png"⟩

theorem loadProjectBackfill_of_ne (p : ProjectState) (h : p.projectTitle ≠ "") :
    loadProjectBackfill p = p := by
  unfold loadProjectBackfill
  rw [if_neg]
  simpa using h

theorem strip_processProjectFile (urlOf : AssetFile → String) (m : Manifest)
    (assets : List (String × AssetFile)) (store0 : AssetStore)
    (hm : m.projectTitle ≠ "") :
    (processProjectFile urlOf { manifest := some m, assets := assets } store0).2.map
      strip = some m := by
  have h2 : (processProjectFile urlOf { manifest := some m, assets := assets } store0).2 =
      some (loadProjectBackfill (hydrateState
        (assets.foldl (fun st kv =>
          setAsset kv.1 { name := kv.1, mime := kv.2.mime, data := kv.2.data } st)
          emptyStore)
        urlOf (embedManifest m))) := rfl
  rw [h2, loadProjectBackfill_of_ne _ hm, Option.map_some', strip_hydrateState,
    strip_embedManifest]

theorem eraseKeys_savePlaceholders (fB : String → Option Blob) (s : ProjectState)
    (st0 : SaveState) :
    eraseKeys (strip (savePlaceholders fB s st0).1) = eraseKeys (strip s) := by
  cases h1 : s.titlePage.logo <;> cases h3 : s.endPage.logo <;>
    simp [savePlaceholders, processLogo, strip, eraseKeys, h1, h3]

/-- Counterexample to C1 as stated: a snapshot with an empty project
title and no placeholder references round-trips to a structurally
different snapshot, because the load backfills the project title from
the title-page header. -/
theorem c1_counterexample :
    (∀ k ∈ collectKeys emptyTitleState, strStarts k "default-" = false) ∧
    (saveProject fetchOk emptyTitleState emptyStore).savable = emptyTitleState ∧
    (processProjectFile urlOfName
        (saveProject fetchOk emptyTitleState emptyStore).archive emptyStore).2.map
      strip ≠ some (strip emptyTitleState) := by
  refine ⟨by decide, by decide, by decide⟩

/-- C1 as amended: for a snapshot with a non-empty project title and
successful fetches, loading the saved archive yields a snapshot whose
manifest projection equals that of the rewritten savable copy; the
savable copy differs from the snapshot only in the four page-level
asset reference slots; a non-placeholder reference passes through
unchanged and triggers no fetch, while a placeholder is rewritten to a
concrete non-placeholder key registered in the store; and the rewriting
is deterministic: equal original keys map to equal rewritten keys
within the one save call. -/
theorem c1_round_trip (fB : String → Option Blob) (urlOf : AssetFile → String)
    (S : ProjectState) (store0 : AssetStore) (R : SaveResult)
    (hR : R = saveProject fB S store0)
    (hT : S.projectTitle ≠ "") (hF : ∀ p, (fB p).isSome = true) :
    (processProjectFile urlOf R.archive store0).2.map strip =
      some (strip R.savable) ∧
    eraseKeys (strip R.savable) = eraseKeys (strip S) ∧
    R.savable.panels = S.panels ∧
    (∀ pr ∈ keyPairs S R.savable,
      (strStarts pr.1 "default-" = false → pr.2 = pr.1) ∧
      (strStarts pr.1 "default-" = true →
        strStarts pr.2 "default-" = false ∧ pr.2 ≠ "" ∧
        (lookupAsset R.store.files pr.2).isSome = true)) ∧
    (∀ pr qr, pr ∈ keyPairs S R.savable → qr ∈ keyPairs S R.savable →
      pr.1 = qr.1 → pr.2 = qr.2) ∧
    (∀ k ∈ R.fetchLog, strStarts k "default-" = true) := by
  subst hR
  have hstore : (saveProject fB S store0).store =
      (runSteps fB (stepList S) { store := store0, cache := [], fetchLog := [] }).2.store :=
    congrArg SaveState.store (savePlaceholders_state_eq fB S _)
  have hcache : (saveProject fB S store0).cache =
      (runSteps fB (stepList S) { store := store0, cache := [], fetchLog := [] }).2.cache :=
    congrArg SaveState.cache (savePlaceholders_state_eq fB S _)
  have hlog : (saveProject fB S store0).fetchLog =
      (runSteps fB (stepList S) { store := store0, cache := [], fetchLog := [] }).2.fetchLog :=
    congrArg SaveState.fetchLog (savePlaceholders_state_eq fB S _)
  have hbridge := keyPairs_bridge fB S { store := store0, cache := [], fetchLog := [] }
  refine ⟨?_, eraseKeys_savePlaceholders fB S _, rfl, ?_, ?_, ?_⟩
  · exact strip_processProjectFile urlOf _ _ store0 hT
  · intro pr hpr
    have hpr2 : pr ∈ ((stepList S).map Prod.fst).zip
        (runSteps fB (stepList S) { store := store0, cache := [], fetchLog := [] }).1 := by
      rw [← hbridge]; exact hpr
    obtain ⟨h1, h2⟩ := runSteps_spec fB hF (stepList S) _ (initial_cacheWF store0) pr hpr2
    refine ⟨h1, fun hp => ?_⟩
    obtain ⟨_, a, b, c⟩ := h2 hp
    exact ⟨a, b, by rw [hstore]; exact c⟩
  · intro pr qr hpr hqr heq
    have hpr2 : pr ∈ ((stepList S).map Prod.fst).zip
        (runSteps fB (stepList S) { store := store0, cache := [], fetchLog := [] }).1 := by
      rw [← hbridge]; exact hpr
    have hqr2 : qr ∈ ((stepList S).map Prod.fst).zip
        (runSteps fB (stepList S) { store := store0, cache := [], fetchLog := [] }).1 := by
      rw [← hbridge]; exact hqr
    obtain ⟨p1, p2⟩ := runSteps_spec fB hF (stepList S) _ (initial_cacheWF store0) pr hpr2
    obtain ⟨q1, q2⟩ := runSteps_spec fB hF (stepList S) _ (initial_cacheWF store0) qr hqr2
    cases hpk : strStarts pr.1 "default-" with
    | false =>
      have hqk : strStarts qr.1 "default-" = false := by rw [← heq]; exact hpk
      rw [p1 hpk, q1 hqk, heq]
    | true =>
      have hqk : strStarts qr.1 "default-" = true := by rw [← heq]; exact hpk
      have c1 := (p2 hpk).1
      have c2 := (q2 hqk).1
      rw [heq] at c1
      rw [c1] at c2
      exact Option.some_inj.mp c2
  · intro k hk
    rw [hlog] at hk
    obtain ⟨_, hiff⟩ := runSteps_log_spec fB hF (stepList S)
      { store := store0, cache := [], fetchLog := [] }
      (initial_cachedLogged store0) (initial_loggedCached store0) List.nodup_nil
    rcases (hiff k).mp hk with h | ⟨_, hpk⟩
    · simp at h
    · exact hpk

/-- Witness for the amended C1 at the sample state (placeholders on
both pages, one real panel asset). -/
theorem c1_round_trip_witness :
    (processProjectFile urlOfName
        (saveProject fetchOk sampleState sampleStore).archive sampleStore).2.map
      strip = some (strip (saveProject fetchOk sampleState sampleStore).savable) ∧
    eraseKeys (strip (saveProject fetchOk sampleState sampleStore).savable) =
      eraseKeys (strip sampleState) ∧
    (saveProject fetchOk sampleState sampleStore).savable.panels =
      sampleState.panels := by
  obtain ⟨a, b, c, -, -, -⟩ := c1_round_trip fetchOk urlOfName sampleState sampleStore
    _ rfl (by decide) (fun p => rfl)
  exact ⟨a, b, c⟩

/-- Witness for the amended C2 at a concrete package and store. -/
theorem c2_missing_manifest_witness :
    (processProjectFile (fun _ => "blob:x")
        { manifest := none
          assets := [("a.png", { name := "a.png", mime := "image/png", data := [2] })] }
        { files := [("k.png", { name := "k.png", mime := "image/png", data := [1] })]
          next := 1 }).2 = none ∧
    (processProjectFile (fun _ => "blob:x")
        { manifest := none
          assets := [("a.png", { name := "a.png", mime := "image/png", data := [2] })] }
        { files := [("k.png", { name := "k.png", mime := "image/png", data := [1] })]
          next := 1 }).1 = emptyStore :=
  c2_missing_manifest (fun _ => "blob:x") _ _ rfl

end Tekastory
